import Mathlib

/-!
Verification of the shape-normalization core of `generate_parallel_html.py`
(repository `angirov/partext`).

The decoded JSON values the normalizer receives are modelled by `JValue`
(numbers are modelled as integers, which covers every input the claims
touch).  Python dictionaries decoded from JSON are modelled as association
lists whose keys are distinct; the dict operations used by the source
(`in`, `[]`, `.get`, `.update`, `.setdefault`) are embedded below with
the semantics of Python (replacement keeps the position and the original key,
fresh keys are appended, preserving insertion order).  Python exceptions
are modelled by `PyErr`; the normalizer is embedded as a function into
`Except PyErr JValue` whose successful value is the JSON document the
Python code returns.
-/

set_option autoImplicit false

namespace Partext

inductive JValue where
  | null
  | bool (b : Bool)
  | num (n : Int)
  | str (s : String)
  | arr (xs : List JValue)
  | obj (fields : List (String × JValue))

/-- Python exceptions that the normalizer can raise: `ValueError` is raised
explicitly by the source; `TypeError` and `AttributeError` are raised by the
interpreter (unhashable dict keys, iterating a non-iterable, calling `.get`
on a non-dict). -/
inductive PyErr where
  | valueError (msg : String)
  | typeError (msg : String)
  | attrError (msg : String)

def PyErr.isValueError : PyErr → Bool
  | .valueError _ => true
  | _ => false

/-- Lookup in a Python dict with string keys (`item["k"]`, `item.get("k")`). -/
def lookupStr : List (String × JValue) → String → Option JValue
  | [], _ => none
  | (k, v) :: rest, key => if k = key then some v else lookupStr rest key

/-- Assignment `d[k] = v` when `k` is already a key of `d`: the value is replaced in
place, the position and the stored key are kept. -/
def setKey : List (String × JValue) → String → JValue → List (String × JValue)
  | [], _, _ => []
  | (k, v) :: rest, key, val =>
      if k = key then (k, val) :: rest else (k, v) :: setKey rest key val

/-- Assignment `d[k] = v` on a Python dict: replace in place if present, else append. -/
def dictSet (d : List (String × JValue)) (k : String) (v : JValue) :
    List (String × JValue) :=
  if (lookupStr d k).isSome then setKey d k v else d ++ [(k, v)]

/-- Python `d.update(e)`: assign every pair of `e` into `d`, in order. -/
def dictUpdate (d e : List (String × JValue)) : List (String × JValue) :=
  e.foldl (fun acc p => dictSet acc p.1 p.2) d

/-- Python `d.setdefault(k, v)` (the source discards the returned value): insert
`v` under `k` only when `k` is not yet a key. -/
def dictSetdefault (d : List (String × JValue)) (k : String) (v : JValue) :
    List (String × JValue) :=
  if (lookupStr d k).isSome then d else d ++ [(k, v)]

/-- Python truthiness of a decoded JSON value (`bool(x)` / `x or y`). -/
def pyTruthy : JValue → Bool
  | .null => false
  | .bool b => b
  | .num n => n != 0
  | .str s => s != ""
  | .arr xs => !xs.isEmpty
  | .obj fs => !fs.isEmpty

/-- Equality of hashable decoded-JSON values, as Python dict keys compare:
`True == 1`, `False == 0`, strings by content.  Lists and dicts are
unhashable and never reach a key comparison. -/
def pyKeyEq : JValue → JValue → Bool
  | .null, .null => true
  | .bool a, .bool b => a == b
  | .bool a, .num n => (if a then (1 : Int) else 0) == n
  | .num n, .bool a => n == (if a then (1 : Int) else 0)
  | .num a, .num b => a == b
  | .str a, .str b => a == b
  | _, _ => false

/-- The Python type name of a decoded JSON value, as it appears in
interpreter error messages. -/
def tyName : JValue → String
  | .null => "NoneType"
  | .bool _ => "bool"
  | .num _ => "int"
  | .str _ => "str"
  | .arr _ => "list"
  | .obj _ => "dict"

def sq : Char := Char.ofNat 39
def dq : Char := Char.ofNat 34

/-- One character of a Python `repr` of a string, escaped for quote
character `q` (printable characters other than the escapes stay verbatim,
which is exact for the printable strings the claims use). -/
def escChar (q : Char) (c : Char) : String :=
  if c = '\\' then "\\\\"
  else if c = q then "\\" ++ String.mk [q]
  else if c = '\n' then "\\n"
  else if c = '\r' then "\\r"
  else if c = '\t' then "\\t"
  else String.mk [c]

/-- Python `repr` of a `str`: single-quoted, except double-quoted when the
string holds a single quote and no double quote. -/
def pyStrRepr (s : String) : String :=
  let q := if s.data.contains sq && !(s.data.contains dq) then dq else sq
  String.mk [q] ++ String.join (s.data.map (escChar q)) ++ String.mk [q]

mutual

/-- Python `repr` of a decoded JSON value, used by the f-strings of the
error messages of the source (`{item!r}`). -/
def pyRepr : JValue → String
  | .null => "None"
  | .bool true => "True"
  | .bool false => "False"
  | .num n => toString n
  | .str s => pyStrRepr s
  | .arr xs => "[" ++ String.intercalate ", " (pyReprList xs) ++ "]"
  | .obj fs => "\x7b" ++ String.intercalate ", " (pyReprFields fs) ++ "\x7d"

def pyReprList : List JValue → List String
  | [] => []
  | x :: xs => pyRepr x :: pyReprList xs

def pyReprFields : List (String × JValue) → List String
  | [] => []
  | (k, v) :: fs => (pyStrRepr k ++ ": " ++ pyRepr v) :: pyReprFields fs

end

/-- Python iteration (`for x in v`): lists yield their elements, strings
their characters, dicts their keys; other values raise `TypeError`. -/
def pyIter : JValue → Except PyErr (List JValue)
  | .arr xs => .ok xs
  | .str s => .ok (s.data.map (fun c => JValue.str (String.mk [c])))
  | .obj fs => .ok (fs.map (fun p => JValue.str p.1))
  | v => .error (.typeError ("\x27" ++ tyName v ++ "\x27 object is not iterable"))

/-! ## `normalize_sentences` (flat-list mode), source lines 23-66 -/

/-- The translation-merging body of `normalize_sentences` for entry number
`i` with fields `fs` (source lines 37-52): start from an empty dict, merge
the `translations` field when it is a dict (error when present, non-dict
and non-null), then apply the singular `translation` field (string:
`setdefault` under `dl`; dict: `update`; otherwise error unless null). -/
def flatTranslations (dl : String) (i : Nat) (fs : List (String × JValue)) :
    Except PyErr (List (String × JValue)) := do
  let base ← match lookupStr fs "translations" with
    | none => pure []
    | some (.obj t) => pure (dictUpdate [] t)
    | some .null => pure []
    | some _ => Except.error (.valueError
        ("\x27translations\x27 on entry " ++ toString i ++ " must be an object if provided."))
  match lookupStr fs "translation" with
    | none => pure base
    | some (.str s) => pure (dictSetdefault base dl (JValue.str s))
    | some (.obj t) => pure (dictUpdate base t)
    | some .null => pure base
    | some _ => Except.error (.valueError
        ("\x27translation\x27 on entry " ++ toString i ++ " must be a string or object."))

/-- Resolved section title `item.get("section") or default_section` (source line 54). -/
def titleOf (ds : String) (fs : List (String × JValue)) : JValue :=
  match lookupStr fs "section" with
  | some v => if pyTruthy v then v else JValue.str ds
  | none => JValue.str ds

/-- Coerced root flag `bool(item.get("root", False))` (source line 59). -/
def rootOf (fs : List (String × JValue)) : Bool :=
  pyTruthy ((lookupStr fs "root").getD (JValue.bool false))

/-- The sentence dict appended on source lines 55-61. -/
def mkSentence (orig : JValue) (tr : List (String × JValue)) (root : Bool) : JValue :=
  JValue.obj [("original", orig), ("translations", JValue.obj tr), ("root", JValue.bool root)]

/-- Processing of one flat-list entry (source lines 30-61 up to the
grouping step): validate the entry, merge its translations, and return the
resolved section title together with the normalized sentence object. -/
def flatSentence (ds dl : String) (i : Nat) (item : JValue) :
    Except PyErr (JValue × JValue) :=
  match item with
  | .obj fs =>
      match lookupStr fs "original" with
      | none => .error (.valueError
          ("Entry " ++ toString i ++ " is missing \x27original\x27: " ++ pyRepr item))
      | some orig =>
          (flatTranslations dl i fs).map
            (fun tr => (titleOf ds fs, mkSentence orig tr (rootOf fs)))
  | _ => .error (.valueError
      ("Entry " ++ toString i ++ " is not an object: " ++ pyRepr item))

/-- Grouping statement `sections.setdefault(title, []).append(sentence)` on the insertion-order
dict of sections: append the sentence to the group whose key equals `t`
(Python key equality, keeping the first-seen key), or append a new group at
the end. -/
def secAppend : List (JValue × List JValue) → JValue → JValue →
    List (JValue × List JValue)
  | [], t, s => [(t, [s])]
  | (k, ss) :: rest, t, s =>
      if pyKeyEq k t then (k, ss ++ [s]) :: rest else (k, ss) :: secAppend rest t s

/-- The grouping step: a list or dict section title is unhashable and makes
`dict.setdefault` raise `TypeError`; otherwise the sentence is appended to
the group of its section. -/
def pushSection (acc : List (JValue × List JValue)) (t s : JValue) :
    Except PyErr (List (JValue × List JValue)) :=
  match t with
  | .arr _ => .error (.typeError "unhashable type: \x27list\x27")
  | .obj _ => .error (.typeError "unhashable type: \x27dict\x27")
  | _ => .ok (secAppend acc t s)

/-- Main loop `for index, item in enumerate(items, start=1)` of
`normalize_sentences`, carrying the sections dict. -/
def normLoop (ds dl : String) : List JValue → Nat → List (JValue × List JValue) →
    Except PyErr (List (JValue × List JValue))
  | [], _, acc => .ok acc
  | item :: rest, i, acc => do
      let p ← flatSentence ds dl i item
      let acc' ← pushSection acc p.1 p.2
      normLoop ds dl rest (i + 1) acc'

/-- The final list comprehension of `normalize_sentences` (lines 63-66). -/
def renderSections (secs : List (JValue × List JValue)) : JValue :=
  .arr (secs.map (fun g => JValue.obj [("sectionTitle", g.1), ("sentences", JValue.arr g.2)]))

/-- Source function `normalize_sentences(items, default_section, default_lang)`. -/
def normalize_sentences (items : List JValue) (ds dl : String) :
    Except PyErr JValue :=
  (normLoop ds dl items 1 []).map renderSections

/-! ## `normalize_data` (source lines 69-97) -/

/-- The already-sectioned test of line 73:
`all(isinstance(item, dict) and "sectionTitle" in item and "sentences" in item ...)`. -/
def isPreSectioned (xs : List JValue) : Bool :=
  xs.all (fun item => match item with
    | .obj fs => (lookupStr fs "sectionTitle").isSome && (lookupStr fs "sentences").isSome
    | _ => false)

/-- One sentence of a pre-sectioned section (source lines 79-87): it must
be a dict; `original` defaults to `""`, `translations` to `{}` and `root`
to `False` only when the key is absent — present values, a null
`translations` included, pass through verbatim. -/
def normPreSentence (s : JValue) : Except PyErr JValue :=
  match s with
  | .obj fs => .ok (JValue.obj
      [("original", (lookupStr fs "original").getD (JValue.str "")),
       ("translations", (lookupStr fs "translations").getD (JValue.obj [])),
       ("root", JValue.bool (pyTruthy ((lookupStr fs "root").getD (JValue.bool false))))])
  | _ => .error (.valueError ("Sentence must be an object: " ++ pyRepr s))

def normPreSentList : List JValue → Except PyErr (List JValue)
  | [] => .ok []
  | s :: rest => do
      let x ← normPreSentence s
      let xs ← normPreSentList rest
      pure (x :: xs)

/-- One section of a pre-sectioned input (source lines 75-88).  The
dispatch predicate guarantees the section is a dict; on any other value
`.get` would raise `AttributeError`, modelled faithfully and proved
unreachable. -/
def normPreSection (ds : String) (sec : JValue) : Except PyErr JValue :=
  match sec with
  | .obj fs => do
      let sl ← pyIter ((lookupStr fs "sentences").getD (JValue.arr []))
      let sents ← normPreSentList sl
      pure (JValue.obj
        [("sectionTitle", (lookupStr fs "sectionTitle").getD (JValue.str ds)),
         ("sentences", JValue.arr sents)])
  | sec => .error (.attrError
      ("\x27" ++ tyName sec ++ "\x27 object has no attribute \x27get\x27"))

def normPreSections (ds : String) : List JValue → Except PyErr (List JValue)
  | [] => .ok []
  | sec :: rest => do
      let x ← normPreSection ds sec
      let xs ← normPreSections ds rest
      pure (x :: xs)

def unsupportedShapeMsg : String :=
  "Unsupported JSON shape. Expected a list of sentences or sections."

/-- The list case of `normalize_data` (lines 71-92): pre-sectioned inputs
are rebuilt with defaults filled, everything else is treated as a flat
sentence list. -/
def normList (xs : List JValue) (ds dl : String) : Except PyErr JValue :=
  if isPreSectioned xs then (normPreSections ds xs).map JValue.arr
  else normalize_sentences xs ds dl

theorem lookupStr_sizeOf {fs : List (String × JValue)} {k : String} {v : JValue}
    (h : lookupStr fs k = some v) : sizeOf v < sizeOf fs := by
  induction fs with
  | nil => simp [lookupStr] at h
  | cons p rest ih =>
      obtain ⟨k', v'⟩ := p
      simp only [lookupStr] at h
      by_cases hk : k' = k
      · simp [hk] at h
        subst h
        simp
        omega
      · simp [hk] at h
        have := ih h
        simp
        omega

/-- Source function `normalize_data(raw_data, default_section, default_lang)`: dispatch on
the decoded top-level shape, recursing into the `sections` value of a dict. -/
def normalize_data (raw : JValue) (ds dl : String) : Except PyErr JValue :=
  match raw with
  | .arr xs => normList xs ds dl
  | .obj fs =>
      match h : lookupStr fs "sections" with
      | some v => normalize_data v ds dl
      | none => .error (.valueError unsupportedShapeMsg)
  | _ => .error (.valueError unsupportedShapeMsg)
termination_by sizeOf raw
decreasing_by
  simp only [JValue.obj.sizeOf_spec]
  have := lookupStr_sizeOf h
  omega

/-! ## Observations on documents, used to state the claims -/

/-- True when `needle` occurs at the start of `hay`. -/
def subAt : List Char → List Char → Bool
  | [], _ => true
  | _ :: _, [] => false
  | a :: as, b :: bs => a == b && subAt as bs

def hasSubAux : List Char → List Char → Bool
  | n, [] => n.isEmpty
  | n, c :: cs => subAt n (c :: cs) || hasSubAux n cs

/-- True when `needle` occurs somewhere in `hay` (Python `needle in hay` on strings). -/
def strHasSub (hay needle : String) : Bool :=
  hasSubAux needle.data hay.data

/-- The sentence has a `translations` field holding a mapping. -/
def sentTransObj : JValue → Bool
  | .obj fs =>
      match lookupStr fs "translations" with
      | some (.obj _) => true
      | _ => false
  | _ => false

/-- Every sentence of every section of the document has a mapping in its
`translations` field. -/
def allSentTransObj : JValue → Bool
  | .arr secs => secs.all (fun sec =>
      match sec with
      | .obj fs =>
          match lookupStr fs "sentences" with
          | some (.arr ss) => ss.all sentTransObj
          | _ => false
      | _ => false)
  | _ => false

/-- Number of sections of a normalized document. -/
def numSections : JValue → Nat
  | .arr secs => secs.length
  | _ => 0

/-- The `section` field of the entry, when the entry is a mapping bearing one. -/
def sectionField : JValue → Option JValue
  | .obj fs => lookupStr fs "section"
  | _ => none

/-- The per-entry results of the flat-list loop, before grouping: the
resolved (section title, sentence) pairs in input order. -/
def flatPairs (ds dl : String) : List JValue → Nat → Except PyErr (List (JValue × JValue))
  | [], _ => .ok []
  | item :: rest, i => do
      let p ← flatSentence ds dl i item
      let ps ← flatPairs ds dl rest (i + 1)
      pure (p :: ps)

/-- A decoded JSON value Python can use as a dict key. -/
def pyHashable : JValue → Bool
  | .arr _ => false
  | .obj _ => false
  | _ => true

/-- Pushing a list of (title, sentence) pairs into the sections dict, in
order. -/
def foldPush : List (JValue × List JValue) → List (JValue × JValue) →
    Except PyErr (List (JValue × List JValue))
  | acc, [] => .ok acc
  | acc, p :: ps => do
      let acc' ← pushSection acc p.1 p.2
      foldPush acc' ps

/-- When every resolved section title is a string, strip the constructor. -/
def stripTitles : List (JValue × JValue) → Option (List (String × JValue))
  | [] => some []
  | (.str t, s) :: rest => (stripTitles rest).map (fun l => (t, s) :: l)
  | _ => none

/-- The titles in first-encounter order, duplicates dropped. -/
def firstSeenAux (seen : List String) : List String → List String
  | [] => []
  | t :: ts => if t ∈ seen then firstSeenAux seen ts
               else t :: firstSeenAux (t :: seen) ts

def firstSeen (ts : List String) : List String :=
  firstSeenAux [] ts

/-- Specification-style grouping of (title, sentence) pairs: one group per
distinct title, in first-encounter order, each holding its sentences in
input order. -/
def specGroupStr (pairs : List (String × JValue)) : List (JValue × List JValue) :=
  (firstSeen (pairs.map Prod.fst)).map
    (fun t => (JValue.str t, (pairs.filter (fun p => p.1 == t)).map Prod.snd))

/-- Shape of a normalized sentence: exactly the three fields built by the
normalizer, with a boolean `root`. -/
def sentShape (s : JValue) : Prop :=
  ∃ o tv b, s = JValue.obj [("original", o), ("translations", tv), ("root", JValue.bool b)]

/-- Shape of a normalized section. -/
def secShape (sec : JValue) : Prop :=
  ∃ t ss, sec = JValue.obj [("sectionTitle", t), ("sentences", JValue.arr ss)]
    ∧ ∀ x ∈ ss, sentShape x

/-- Shape of a normalized document. -/
def docShape (doc : JValue) : Prop :=
  ∃ secs, doc = JValue.arr secs ∧ ∀ sec ∈ secs, secShape sec

/-- The value is a JSON object (a Python dict). -/
def isObj : JValue → Bool
  | .obj _ => true
  | _ => false

/-- The complete inventory of interpreter-raised (`TypeError`) messages the
normalizer can produce; every other failure is a `ValueError`. -/
def errInventory (e : PyErr) : Prop :=
  match e with
  | .valueError _ => True
  | .typeError m => m = "\x27NoneType\x27 object is not iterable"
      ∨ m = "\x27bool\x27 object is not iterable"
      ∨ m = "\x27int\x27 object is not iterable"
      ∨ m = "unhashable type: \x27list\x27"
      ∨ m = "unhashable type: \x27dict\x27"
  | .attrError _ => False

/-! ## General lemmas -/

theorem normalize_data_arr (xs : List JValue) (ds dl : String) :
    normalize_data (JValue.arr xs) ds dl = normList xs ds dl := by
  simp [normalize_data]

theorem normalize_data_sections (fs : List (String × JValue)) (v : JValue) (ds dl : String)
    (h : lookupStr fs "sections" = some v) :
    normalize_data (JValue.obj fs) ds dl = normalize_data v ds dl := by
  rw [normalize_data]
  split
  · rename_i v' hv
    rw [hv] at h
    cases h
    rfl
  · rename_i hv
    rw [hv] at h
    cases h

theorem normalize_data_no_sections (fs : List (String × JValue)) (ds dl : String)
    (h : lookupStr fs "sections" = none) :
    normalize_data (JValue.obj fs) ds dl = .error (.valueError unsupportedShapeMsg) := by
  rw [normalize_data]
  split
  · rename_i v' hv
    rw [hv] at h
    cases h
  · rfl

theorem lookupStr_none_iff (fs : List (String × JValue)) (k : String) :
    lookupStr fs k = none ↔ k ∉ fs.map Prod.fst := by
  induction fs with
  | nil => simp [lookupStr]
  | cons p rest ih =>
      obtain ⟨k', v'⟩ := p
      simp only [lookupStr, List.map_cons, List.mem_cons]
      by_cases hk : k' = k
      · subst hk
        simp
      · rw [if_neg hk, ih]
        constructor
        · intro h hmem
          rcases hmem with h1 | h2
          · exact hk h1.symm
          · exact h h2
        · intro h hmem
          exact h (Or.inr hmem)

theorem lookupStr_append (d e : List (String × JValue)) (k : String) :
    lookupStr (d ++ e) k =
      match lookupStr d k with
      | some v => some v
      | none => lookupStr e k := by
  induction d with
  | nil => simp [lookupStr]
  | cons p rest ih =>
      obtain ⟨k', v'⟩ := p
      by_cases hk : k' = k <;> simp [lookupStr, hk, ih]

theorem lookupStr_setKey_self (d : List (String × JValue)) (k : String) (v : JValue)
    (h : (lookupStr d k).isSome) : lookupStr (setKey d k v) k = some v := by
  induction d with
  | nil => simp [lookupStr] at h
  | cons p rest ih =>
      obtain ⟨k', v'⟩ := p
      by_cases hk : k' = k
      · simp [setKey, lookupStr, hk]
      · simp [lookupStr, hk] at h
        simp [setKey, lookupStr, hk, ih h]

theorem lookupStr_setKey_other (d : List (String × JValue)) (k key : String) (v : JValue)
    (h : key ≠ k) : lookupStr (setKey d k v) key = lookupStr d key := by
  induction d with
  | nil => rfl
  | cons p rest ih =>
      obtain ⟨k', v'⟩ := p
      simp only [setKey]
      by_cases hk : k' = k
      · rw [if_pos hk]
        have hne : ¬ k' = key := fun hh => h (hh.symm.trans hk)
        simp only [lookupStr]
        rw [if_neg hne, if_neg hne]
      · rw [if_neg hk]
        simp only [lookupStr]
        by_cases hkey : k' = key
        · rw [if_pos hkey, if_pos hkey]
        · rw [if_neg hkey, if_neg hkey, ih]

theorem lookupStr_dictSet (d : List (String × JValue)) (k key : String) (v : JValue) :
    lookupStr (dictSet d k v) key =
      if key = k then some v else lookupStr d key := by
  by_cases hk : key = k
  · subst hk
    rw [if_pos rfl]
    unfold dictSet
    by_cases hp : (lookupStr d key).isSome
    · rw [if_pos hp]
      exact lookupStr_setKey_self d key v hp
    · rw [if_neg hp, lookupStr_append]
      cases hl : lookupStr d key with
      | none => simp [lookupStr]
      | some w => rw [hl] at hp; simp at hp
  · rw [if_neg hk]
    unfold dictSet
    by_cases hp : (lookupStr d k).isSome
    · rw [if_pos hp]
      exact lookupStr_setKey_other d k key v hk
    · rw [if_neg hp, lookupStr_append]
      cases hl : lookupStr d key with
      | none =>
          simp only [lookupStr]
          rw [if_neg (fun hh : k = key => hk hh.symm)]
      | some w => simp

theorem lookupStr_dictUpdate (d e : List (String × JValue)) (key : String)
    (hnd : (e.map Prod.fst).Nodup) :
    lookupStr (dictUpdate d e) key =
      match lookupStr e key with
      | some v => some v
      | none => lookupStr d key := by
  induction e generalizing d with
  | nil => simp [dictUpdate, lookupStr]
  | cons p rest ih =>
      obtain ⟨k0, v0⟩ := p
      simp only [List.map_cons, List.nodup_cons] at hnd
      have step : dictUpdate d ((k0, v0) :: rest) = dictUpdate (dictSet d k0 v0) rest := rfl
      rw [step, ih _ hnd.2]
      simp only [lookupStr]
      by_cases hk : key = k0
      · subst hk
        have hrest : lookupStr rest key = none := (lookupStr_none_iff rest key).2 hnd.1
        rw [hrest, if_pos rfl, lookupStr_dictSet, if_pos rfl]
      · rw [if_neg (fun hh : k0 = key => hk hh.symm), lookupStr_dictSet,
          if_neg hk]

theorem except_bind_ok {α β : Type} (e : Except PyErr α) (f : α → Except PyErr β) (b : β) :
    (e >>= f) = .ok b ↔ ∃ a, e = .ok a ∧ f a = .ok b := by
  cases e with
  | error err => simp [Bind.bind, Except.bind]
  | ok a => simp [Bind.bind, Except.bind]

theorem except_map_ok {α β : Type} (e : Except PyErr α) (f : α → β) (b : β) :
    Except.map f e = .ok b ↔ ∃ a, e = .ok a ∧ b = f a := by
  cases e with
  | error err => simp [Except.map]
  | ok a => simp [Except.map, eq_comm]

theorem flatSentence_ok {ds dl : String} {i : Nat} {item : JValue} {p : JValue × JValue}
    (h : flatSentence ds dl i item = .ok p) :
    ∃ fs orig tr, item = JValue.obj fs ∧ lookupStr fs "original" = some orig ∧
      flatTranslations dl i fs = .ok tr ∧
      p = (titleOf ds fs, mkSentence orig tr (rootOf fs)) := by
  cases item with
  | obj fs =>
      simp only [flatSentence] at h
      cases ho : lookupStr fs "original" with
      | none => rw [ho] at h; cases h
      | some orig =>
          rw [ho] at h
          rw [except_map_ok] at h
          obtain ⟨tr, htr, hp⟩ := h
          exact ⟨fs, orig, tr, rfl, ho, htr, hp⟩
  | null => cases h
  | bool b => cases h
  | num n => cases h
  | str s => cases h
  | arr xs => cases h

theorem normLoop_ok_iff (ds dl : String) (items : List JValue) (i : Nat)
    (acc final : List (JValue × List JValue)) :
    normLoop ds dl items i acc = .ok final ↔
      ∃ ps, flatPairs ds dl items i = .ok ps ∧ foldPush acc ps = .ok final := by
  induction items generalizing i acc with
  | nil =>
      simp only [normLoop, flatPairs]
      constructor
      · intro h
        cases h
        exact ⟨[], rfl, rfl⟩
      · rintro ⟨ps, hps, hf⟩
        cases hps
        simpa [foldPush] using hf
  | cons item rest ih =>
      simp only [normLoop, flatPairs]
      constructor
      · intro h
        rw [except_bind_ok] at h
        obtain ⟨p, hp, h⟩ := h
        rw [except_bind_ok] at h
        obtain ⟨acc', hacc, h⟩ := h
        rw [ih] at h
        obtain ⟨ps, hps, hf⟩ := h
        refine ⟨p :: ps, ?_, ?_⟩
        · rw [hp, hps]
          rfl
        · simp only [foldPush, except_bind_ok]
          exact ⟨acc', hacc, hf⟩
      · rintro ⟨ps, hps, hf⟩
        rw [except_bind_ok] at hps
        obtain ⟨p, hp, hps⟩ := hps
        rw [except_bind_ok] at hps
        obtain ⟨ps', hps', heq⟩ := hps
        have heq2 : Except.ok (p :: ps') = Except.ok ps := heq
        cases heq2
        simp only [foldPush, except_bind_ok] at hf
        obtain ⟨acc', hacc, hf⟩ := hf
        rw [hp]
        simp only [except_bind_ok]
        refine ⟨p, rfl, ?_⟩
        rw [hacc]
        exact ⟨acc', rfl, (ih (i + 1) acc').2 ⟨ps', hps', hf⟩⟩

theorem flatPairs_ok_shape {ds dl : String} {items : List JValue} {i : Nat}
    {ps : List (JValue × JValue)} (h : flatPairs ds dl items i = .ok ps) :
    ∀ p ∈ ps, ∃ orig tr root, p.2 = mkSentence orig tr root := by
  induction items generalizing i ps with
  | nil =>
      cases h
      intro p hp
      cases hp
  | cons item rest ih =>
      simp only [flatPairs, except_bind_ok] at h
      obtain ⟨p, hp, h⟩ := h
      obtain ⟨ps', hps', heq⟩ := h
      have heq2 : Except.ok (p :: ps') = Except.ok ps := heq
      cases heq2
      intro q hq
      rcases List.mem_cons.1 hq with hq | hq
      · subst hq
        obtain ⟨fs, orig, tr, _, _, _, hpv⟩ := flatSentence_ok hp
        exact ⟨orig, tr, rootOf fs, by rw [hpv]⟩
      · exact ih hps' q hq

theorem pushSection_ok {acc acc' : List (JValue × List JValue)} {t s : JValue}
    (h : pushSection acc t s = .ok acc') : acc' = secAppend acc t s := by
  cases t <;> simp only [pushSection] at h <;>
    first
      | exact (Except.ok.inj h).symm
      | cases h

theorem pushSection_ok_hashable {acc acc' : List (JValue × List JValue)} {t s : JValue}
    (h : pushSection acc t s = .ok acc') : pyHashable t = true := by
  cases t <;> simp only [pushSection] at h <;> first | rfl | cases h

theorem secAppend_sentences_inv {P : JValue → Prop} {acc : List (JValue × List JValue)}
    {t s : JValue} (hacc : ∀ g ∈ acc, ∀ x ∈ g.2, P x) (hs : P s) :
    ∀ g ∈ secAppend acc t s, ∀ x ∈ g.2, P x := by
  induction acc with
  | nil =>
      intro g hg x hx
      simp only [secAppend, List.mem_singleton] at hg
      subst hg
      simp only [List.mem_singleton] at hx
      subst hx
      exact hs
  | cons h0 rest ih =>
      obtain ⟨k, ss⟩ := h0
      intro g hg x hx
      simp only [secAppend] at hg
      by_cases hk : pyKeyEq k t
      · rw [if_pos hk] at hg
        rcases List.mem_cons.1 hg with hg | hg
        · subst hg
          simp only at hx
          rcases List.mem_append.1 hx with hx | hx
          · exact hacc (k, ss) (List.mem_cons_self _ _) x hx
          · rw [List.mem_singleton.1 hx]
            exact hs
        · exact hacc g (List.mem_cons_of_mem _ hg) x hx
      · rw [if_neg hk] at hg
        rcases List.mem_cons.1 hg with hg | hg
        · subst hg
          exact hacc (k, ss) (List.mem_cons_self _ _) x hx
        · exact ih (fun g' hg' => hacc g' (List.mem_cons_of_mem _ hg')) g hg x hx

theorem foldPush_sentences_inv {P : JValue → Prop} {acc final : List (JValue × List JValue)}
    {ps : List (JValue × JValue)} (h : foldPush acc ps = .ok final)
    (hacc : ∀ g ∈ acc, ∀ x ∈ g.2, P x) (hps : ∀ p ∈ ps, P p.2) :
    ∀ g ∈ final, ∀ x ∈ g.2, P x := by
  induction ps generalizing acc with
  | nil =>
      cases h
      exact hacc
  | cons p rest ih =>
      simp only [foldPush, except_bind_ok] at h
      obtain ⟨acc', hacc', hfold⟩ := h
      have hsub : acc' = secAppend acc p.1 p.2 := pushSection_ok hacc'
      refine ih hfold ?_ (fun q hq => hps q (List.mem_cons_of_mem _ hq))
      rw [hsub]
      exact secAppend_sentences_inv hacc (hps p (List.mem_cons_self _ _))

theorem sentTransObj_mkSentence (o : JValue) (tr : List (String × JValue)) (r : Bool) :
    sentTransObj (mkSentence o tr r) = true := rfl

theorem allSentTransObj_renderSections {secs : List (JValue × List JValue)}
    (h : ∀ g ∈ secs, ∀ x ∈ g.2, sentTransObj x = true) :
    allSentTransObj (renderSections secs) = true := by
  simp only [renderSections, allSentTransObj, List.all_eq_true]
  intro sec hsec
  rw [List.mem_map] at hsec
  obtain ⟨g, hg, rfl⟩ := hsec
  show g.2.all sentTransObj = true
  rw [List.all_eq_true]
  exact h g hg

/-- Flat-list mode always produces sentences whose `translations` field is
a mapping. -/
theorem normalize_sentences_transObj {items : List JValue} {ds dl : String} {doc : JValue}
    (h : normalize_sentences items ds dl = .ok doc) : allSentTransObj doc = true := by
  simp only [normalize_sentences] at h
  rw [except_map_ok] at h
  obtain ⟨final, hfinal, rfl⟩ := h
  rw [normLoop_ok_iff] at hfinal
  obtain ⟨ps, hps, hfold⟩ := hfinal
  apply allSentTransObj_renderSections
  apply foldPush_sentences_inv (P := fun x => sentTransObj x = true) hfold
  · intro g hg
    cases hg
  · intro p hp
    obtain ⟨o, tr, r, hpv⟩ := flatPairs_ok_shape hps p hp
    rw [hpv]
    exact sentTransObj_mkSentence o tr r

theorem titleOf_of_truthy {ds : String} {fs : List (String × JValue)} {v : JValue}
    (h : lookupStr fs "section" = some v) (ht : pyTruthy v = true) :
    titleOf ds fs = v := by
  simp [titleOf, h, ht]

theorem titleOf_of_none {ds : String} {fs : List (String × JValue)}
    (h : lookupStr fs "section" = none) : titleOf ds fs = JValue.str ds := by
  simp [titleOf, h]

theorem secAppend_no_match {acc : List (JValue × List JValue)} {t s : JValue}
    (h : ∀ g ∈ acc, pyKeyEq g.1 t = false) :
    secAppend acc t s = acc ++ [(t, [s])] := by
  induction acc with
  | nil => rfl
  | cons g0 rest ih =>
      obtain ⟨k, ss⟩ := g0
      have hk : pyKeyEq k t = false := h (k, ss) (List.mem_cons_self _ _)
      simp only [secAppend, hk]
      rw [if_neg (by simp [hk])]
      rw [ih (fun g hg => h g (List.mem_cons_of_mem _ hg))]
      rfl

/-- Pairwise-distinct hashable titles each open their own section. -/
theorem foldPush_len_distinct {ps : List (JValue × JValue)}
    {acc final : List (JValue × List JValue)}
    (h : foldPush acc ps = .ok final)
    (hdisj : ∀ p ∈ ps, ∀ g ∈ acc, pyKeyEq g.1 p.1 = false)
    (hnd : (ps.map Prod.fst).Pairwise (fun a b => pyKeyEq a b = false)) :
    final.length = acc.length + ps.length := by
  induction ps generalizing acc with
  | nil =>
      cases h
      rfl
  | cons p rest ih =>
      simp only [foldPush, except_bind_ok] at h
      obtain ⟨acc', hacc', hfold⟩ := h
      have hsub : acc' = secAppend acc p.1 p.2 := pushSection_ok hacc'
      have hnm : secAppend acc p.1 p.2 = acc ++ [(p.1, [p.2])] :=
        secAppend_no_match (fun g hg => hdisj p (List.mem_cons_self _ _) g hg)
      rw [hnm] at hsub
      simp only [List.map_cons, List.pairwise_cons] at hnd
      have hlen := ih hfold ?_ hnd.2
      · rw [hsub] at hlen
        simp only [List.length_append, List.length_cons, List.length_nil] at hlen ⊢
        omega
      · intro q hq g hg
        rw [hsub] at hg
        rcases List.mem_append.1 hg with hg | hg
        · exact hdisj q (List.mem_cons_of_mem _ hq) g hg
        · rw [List.mem_singleton.1 hg]
          exact hnd.1 q.1 (List.mem_map_of_mem Prod.fst hq)

/-- The per-entry pairs line up with the input entries. -/
theorem flatPairs_rel {ds dl : String} {items : List JValue} {i : Nat}
    {ps : List (JValue × JValue)} (h : flatPairs ds dl items i = .ok ps) :
    List.Forall₂ (fun item p =>
      ∃ fs, item = JValue.obj fs ∧ p.1 = titleOf ds fs) items ps := by
  induction items generalizing i ps with
  | nil =>
      cases h
      exact List.Forall₂.nil
  | cons item rest ih =>
      simp only [flatPairs, except_bind_ok] at h
      obtain ⟨p, hp, h⟩ := h
      obtain ⟨ps', hps', heq⟩ := h
      have heq2 : Except.ok (p :: ps') = Except.ok ps := heq
      cases heq2
      obtain ⟨fs, orig, tr, hfs, _, _, hpv⟩ := flatSentence_ok hp
      exact List.Forall₂.cons ⟨fs, hfs, by rw [hpv]⟩ (ih hps')

theorem foldPush_const_title_aux {ds : String} {qs : List (JValue × JValue)}
    {ss0 : List JValue} {final : List (JValue × List JValue)}
    (h : foldPush [(JValue.str ds, ss0)] qs = .ok final)
    (ht : ∀ q ∈ qs, q.1 = JValue.str ds) :
    ∃ ss, final = [(JValue.str ds, ss)] := by
  induction qs generalizing ss0 with
  | nil =>
      cases h
      exact ⟨ss0, rfl⟩
  | cons q rest ih =>
      simp only [foldPush, except_bind_ok] at h
      obtain ⟨acc', hacc', hfold⟩ := h
      have hq1 : q.1 = JValue.str ds := ht q (List.mem_cons_self _ _)
      have hsub : acc' = secAppend [(JValue.str ds, ss0)] q.1 q.2 := pushSection_ok hacc'
      rw [hq1] at hsub
      have : secAppend [(JValue.str ds, ss0)] (JValue.str ds) q.2 =
          [(JValue.str ds, ss0 ++ [q.2])] := by
        simp [secAppend, pyKeyEq]
      rw [this] at hsub
      subst hsub
      exact ih hfold (fun q' hq' => ht q' (List.mem_cons_of_mem _ hq'))

theorem firstSeenAux_mem {seen ts : List String} {x : String}
    (h : x ∈ firstSeenAux seen ts) : x ∈ ts ∧ x ∉ seen := by
  induction ts generalizing seen with
  | nil => cases h
  | cons u rest ih =>
      simp only [firstSeenAux] at h
      by_cases hu : u ∈ seen
      · rw [if_pos hu] at h
        have := ih h
        exact ⟨List.mem_cons_of_mem _ this.1, this.2⟩
      · rw [if_neg hu] at h
        rcases List.mem_cons.1 h with h | h
        · subst h
          exact ⟨List.mem_cons_self _ _, hu⟩
        · have := ih h
          refine ⟨List.mem_cons_of_mem _ this.1, fun hx => this.2 (List.mem_cons_of_mem _ hx)⟩

theorem firstSeenAux_nodup (seen ts : List String) : (firstSeenAux seen ts).Nodup := by
  induction ts generalizing seen with
  | nil => exact List.nodup_nil
  | cons u rest ih =>
      simp only [firstSeenAux]
      by_cases hu : u ∈ seen
      · rw [if_pos hu]
        exact ih seen
      · rw [if_neg hu]
        refine List.nodup_cons.2 ⟨?_, ih (u :: seen)⟩
        intro hmem
        exact (firstSeenAux_mem hmem).2 (List.mem_cons_self _ _)

theorem firstSeen_nodup (ts : List String) : (firstSeen ts).Nodup :=
  firstSeenAux_nodup [] ts

theorem firstSeenAux_concat (seen ts : List String) (t : String) :
    firstSeenAux seen (ts ++ [t]) =
      firstSeenAux seen ts ++ (if t ∈ seen ∨ t ∈ ts then [] else [t]) := by
  induction ts generalizing seen with
  | nil =>
      by_cases h : t ∈ seen <;> simp [firstSeenAux, h]
  | cons u rest ih =>
      simp only [List.cons_append, firstSeenAux, List.append_eq]
      by_cases hu : u ∈ seen
      · rw [if_pos hu, if_pos hu, ih]
        congr 1
        by_cases htu : t = u
        · subst htu
          simp [hu, List.mem_cons]
        · simp [List.mem_cons, htu]
      · rw [if_neg hu, if_neg hu, ih, List.cons_append]
        congr 2
        by_cases htu : t = u
        · subst htu
          simp [List.mem_cons]
        · simp [List.mem_cons, htu]

theorem firstSeen_concat_mem (ts : List String) (t : String) (h : t ∈ ts) :
    firstSeen (ts ++ [t]) = firstSeen ts := by
  rw [firstSeen, firstSeen, firstSeenAux_concat]
  rw [if_pos (Or.inr h)]
  exact List.append_nil _

theorem firstSeen_concat_not_mem (ts : List String) (t : String) (h : t ∉ ts) :
    firstSeen (ts ++ [t]) = firstSeen ts ++ [t] := by
  rw [firstSeen, firstSeen, firstSeenAux_concat]
  rw [if_neg (by simp [h])]

theorem mem_firstSeenAux {seen ts : List String} {x : String}
    (hx : x ∈ ts) (hs : x ∉ seen) : x ∈ firstSeenAux seen ts := by
  induction ts generalizing seen with
  | nil => cases hx
  | cons u rest ih =>
      simp only [firstSeenAux]
      by_cases hu : u ∈ seen
      · rw [if_pos hu]
        rcases List.mem_cons.1 hx with h | h
        · exact absurd (h ▸ hu) hs
        · exact ih h hs
      · rw [if_neg hu]
        by_cases hxu : x = u
        · exact hxu ▸ List.mem_cons_self _ _
        · rcases List.mem_cons.1 hx with h | h
          · exact absurd h hxu
          · refine List.mem_cons_of_mem _ (ih h ?_)
            intro hc
            rcases List.mem_cons.1 hc with hc | hc
            · exact hxu hc
            · exact hs hc

theorem mem_firstSeen_of_mem {ts : List String} {x : String} (hx : x ∈ ts) :
    x ∈ firstSeen ts :=
  mem_firstSeenAux hx (List.not_mem_nil x)

theorem filter_keys_nil {pairs : List (String × JValue)} {t : String}
    (h : t ∉ pairs.map Prod.fst) :
    pairs.filter (fun p => p.1 == t) = [] := by
  induction pairs with
  | nil => rfl
  | cons p rest ih =>
      simp only [List.map_cons, List.mem_cons] at h
      push_neg at h
      rw [List.filter_cons]
      rw [if_neg (by simp [beq_eq_false_iff_ne.2 (fun hc : p.1 = t => h.1 hc.symm)])]
      exact ih h.2

theorem secAppend_map {ts : List String} {g : String → List JValue} {t : String}
    (hnd : ts.Nodup) (ht : t ∈ ts) (s : JValue) :
    secAppend (ts.map (fun u => (JValue.str u, g u))) (JValue.str t) s
      = ts.map (fun u => (JValue.str u, if u = t then g u ++ [s] else g u)) := by
  induction ts with
  | nil => cases ht
  | cons u rest ih =>
      simp only [List.map_cons, secAppend]
      rw [List.nodup_cons] at hnd
      by_cases hu : u = t
      · subst hu
        rw [if_pos (by simp [pyKeyEq])]
        congr 1
        · rw [if_pos rfl]
        · apply (List.map_congr_left ?_).symm
          intro x hx
          rw [if_neg (fun hc : x = u => hnd.1 (hc ▸ hx))]
      · have hkeq : pyKeyEq (JValue.str u) (JValue.str t) = false := by
          simp [pyKeyEq]
          exact hu
        rw [if_neg (by simp [hkeq])]
        rw [if_neg hu]
        have ht' : t ∈ rest := by
          rcases List.mem_cons.1 ht with h | h
          · exact absurd h.symm hu
          · exact h
        rw [ih hnd.2 ht']

theorem specGroupStr_concat (pairs : List (String × JValue)) (t : String) (s : JValue) :
    specGroupStr (pairs ++ [(t, s)]) = secAppend (specGroupStr pairs) (JValue.str t) s := by
  by_cases ht : t ∈ pairs.map Prod.fst
  · have hfs : firstSeen ((pairs ++ [(t, s)]).map Prod.fst) = firstSeen (pairs.map Prod.fst) := by
      rw [List.map_append]
      exact firstSeen_concat_mem _ t ht
    have htfs : t ∈ firstSeen (pairs.map Prod.fst) := mem_firstSeen_of_mem ht
    simp only [specGroupStr]
    rw [hfs, secAppend_map (firstSeen_nodup _) htfs s]
    apply List.map_congr_left
    intro u hu
    rw [List.filter_append, List.map_append]
    by_cases hut : u = t
    · subst hut
      rw [if_pos rfl]
      have hf : List.filter (fun p => p.1 == u) [(u, s)] = [(u, s)] := by
        simp [List.filter_cons]
      rw [hf]
      rfl
    · rw [if_neg hut]
      have hne : (t == u) = false := beq_eq_false_iff_ne.2 (fun hc => hut hc.symm)
      have hf : List.filter (fun p => p.1 == u) [(t, s)] = [] := by
        simp [List.filter_cons, hne]
      rw [hf, List.map_nil, List.append_nil]
  · have hfs : firstSeen ((pairs ++ [(t, s)]).map Prod.fst)
        = firstSeen (pairs.map Prod.fst) ++ [t] := by
      rw [List.map_append]
      exact firstSeen_concat_not_mem _ t ht
    have hnm : ∀ g ∈ specGroupStr pairs, pyKeyEq g.1 (JValue.str t) = false := by
      intro g hg
      rcases List.mem_map.1 hg with ⟨u, hu, hgu⟩
      have humem : u ∈ pairs.map Prod.fst := (firstSeenAux_mem hu).1
      have hut : ¬ u = t := fun hc => ht (hc ▸ humem)
      rw [← hgu]
      simp [pyKeyEq]
      exact hut
    rw [secAppend_no_match hnm]
    simp only [specGroupStr]
    rw [hfs, List.map_append]
    congr 1
    · apply List.map_congr_left
      intro u hu
      have humem : u ∈ pairs.map Prod.fst := (firstSeenAux_mem hu).1
      have hut : (t == u) = false :=
        beq_eq_false_iff_ne.2 (fun hc => ht (hc ▸ humem))
      rw [List.filter_append]
      have hf : List.filter (fun p => p.1 == u) [(t, s)] = [] := by
        simp [List.filter_cons, hut]
      rw [hf, List.append_nil]
    · simp only [List.map_cons, List.map_nil]
      rw [List.filter_append, filter_keys_nil ht]
      simp [List.filter_cons]

theorem foldl_secAppend_spec (spairs : List (String × JValue)) :
    List.foldl (fun acc p => secAppend acc (JValue.str p.1) p.2) [] spairs
      = specGroupStr spairs := by
  induction spairs using List.reverseRecOn with
  | nil => rfl
  | append_singleton l p ih =>
      rw [List.foldl_append, List.foldl_cons, List.foldl_nil, ih]
      obtain ⟨t, s⟩ := p
      exact (specGroupStr_concat l t s).symm

theorem foldPush_strings {ps : List (JValue × JValue)} {sps : List (String × JValue)}
    (h : stripTitles ps = some sps) (acc : List (JValue × List JValue)) :
    foldPush acc ps = .ok (List.foldl (fun a p => secAppend a (JValue.str p.1) p.2) acc sps) := by
  induction ps generalizing acc sps with
  | nil =>
      cases h
      rfl
  | cons p rest ih =>
      obtain ⟨t, s⟩ := p
      cases t with
      | str ts =>
          simp only [stripTitles] at h
          cases hrest : stripTitles rest with
          | none => rw [hrest] at h; cases h
          | some sps' =>
              rw [hrest] at h
              have h2 : some ((ts, s) :: sps') = some sps := h
              cases h2
              simp only [foldPush, pushSection, List.foldl_cons]
              exact ih hrest _
      | null => cases h
      | bool b => cases h
      | num n => cases h
      | arr xs => cases h
      | obj fs => cases h

theorem sentShape_mkSentence (o : JValue) (tr : List (String × JValue)) (r : Bool) :
    sentShape (mkSentence o tr r) := ⟨o, JValue.obj tr, r, rfl⟩

theorem normPreSentence_ok_shape {s x : JValue} (h : normPreSentence s = .ok x) :
    sentShape x := by
  cases s with
  | obj fs =>
      simp only [normPreSentence] at h
      cases h
      exact ⟨_, _, _, rfl⟩
  | null => cases h
  | bool b => cases h
  | num n => cases h
  | str t => cases h
  | arr xs => cases h

theorem normPreSentList_ok_shape {ss xs : List JValue} (h : normPreSentList ss = .ok xs) :
    ∀ x ∈ xs, sentShape x := by
  induction ss generalizing xs with
  | nil =>
      cases h
      intro x hx
      cases hx
  | cons s rest ih =>
      simp only [normPreSentList, except_bind_ok] at h
      obtain ⟨y, hy, h⟩ := h
      obtain ⟨ys, hys, heq⟩ := h
      have heq2 : Except.ok (y :: ys) = Except.ok xs := heq
      cases heq2
      intro x hx
      rcases List.mem_cons.1 hx with hx | hx
      · exact hx ▸ normPreSentence_ok_shape hy
      · exact ih hys x hx

theorem normPreSection_ok_shape {ds : String} {sec x : JValue}
    (h : normPreSection ds sec = .ok x) : secShape x := by
  cases sec with
  | obj fs =>
      simp only [normPreSection, except_bind_ok] at h
      obtain ⟨sl, hsl, h⟩ := h
      obtain ⟨sents, hsents, heq⟩ := h
      have heq2 : Except.ok (JValue.obj
          [("sectionTitle", (lookupStr fs "sectionTitle").getD (JValue.str ds)),
           ("sentences", JValue.arr sents)]) = Except.ok x := heq
      cases heq2
      exact ⟨_, _, rfl, normPreSentList_ok_shape hsents⟩
  | null => cases h
  | bool b => cases h
  | num n => cases h
  | str t => cases h
  | arr xs => cases h

theorem normPreSections_ok_shape {ds : String} {secs xs : List JValue}
    (h : normPreSections ds secs = .ok xs) : ∀ x ∈ xs, secShape x := by
  induction secs generalizing xs with
  | nil =>
      cases h
      intro x hx
      cases hx
  | cons sec rest ih =>
      simp only [normPreSections, except_bind_ok] at h
      obtain ⟨y, hy, h⟩ := h
      obtain ⟨ys, hys, heq⟩ := h
      have heq2 : Except.ok (y :: ys) = Except.ok xs := heq
      cases heq2
      intro x hx
      rcases List.mem_cons.1 hx with hx | hx
      · exact hx ▸ normPreSection_ok_shape hy
      · exact ih hys x hx

theorem renderSections_shape {secs : List (JValue × List JValue)}
    (h : ∀ g ∈ secs, ∀ x ∈ g.2, sentShape x) : docShape (renderSections secs) := by
  refine ⟨_, rfl, ?_⟩
  intro sec hsec
  rw [List.mem_map] at hsec
  obtain ⟨g, hg, rfl⟩ := hsec
  exact ⟨g.1, g.2, rfl, h g hg⟩

theorem normalize_sentences_shape {items : List JValue} {ds dl : String} {doc : JValue}
    (h : normalize_sentences items ds dl = .ok doc) : docShape doc := by
  simp only [normalize_sentences] at h
  rw [except_map_ok] at h
  obtain ⟨final, hfinal, rfl⟩ := h
  rw [normLoop_ok_iff] at hfinal
  obtain ⟨ps, hps, hfold⟩ := hfinal
  apply renderSections_shape
  apply foldPush_sentences_inv (P := sentShape) hfold
  · intro g hg
    cases hg
  · intro p hp
    obtain ⟨o, tr, r, hpv⟩ := flatPairs_ok_shape hps p hp
    rw [hpv]
    exact sentShape_mkSentence o tr r

theorem normList_shape {xs : List JValue} {ds dl : String} {doc : JValue}
    (h : normList xs ds dl = .ok doc) : docShape doc := by
  simp only [normList] at h
  by_cases hps : isPreSectioned xs
  · rw [if_pos hps, except_map_ok] at h
    obtain ⟨secs, hsecs, rfl⟩ := h
    exact ⟨secs, rfl, normPreSections_ok_shape hsecs⟩
  · rw [if_neg hps] at h
    exact normalize_sentences_shape h

theorem normalize_data_shape_aux : ∀ (n : Nat) (raw : JValue) (ds dl : String) (doc : JValue),
    sizeOf raw ≤ n → normalize_data raw ds dl = .ok doc → docShape doc := by
  intro n
  induction n with
  | zero =>
      intro raw ds dl doc hle h
      cases raw <;> simp at hle
  | succ n ih =>
      intro raw ds dl doc hle h
      cases raw with
      | arr xs =>
          rw [normalize_data_arr] at h
          exact normList_shape h
      | obj fs =>
          cases hl : lookupStr fs "sections" with
          | some v =>
              rw [normalize_data_sections fs v ds dl hl] at h
              have hsz : sizeOf v < sizeOf (JValue.obj fs) := by
                have := lookupStr_sizeOf hl
                simp only [JValue.obj.sizeOf_spec]
                omega
              simp only [JValue.obj.sizeOf_spec] at hle hsz
              exact ih v ds dl doc (by omega) h
          | none =>
              rw [normalize_data_no_sections fs ds dl hl] at h
              cases h
      | null => simp [normalize_data] at h
      | bool b => simp [normalize_data] at h
      | num m => simp [normalize_data] at h
      | str t => simp [normalize_data] at h

theorem normalize_data_shape {raw : JValue} {ds dl : String} {doc : JValue}
    (h : normalize_data raw ds dl = .ok doc) : docShape doc :=
  normalize_data_shape_aux (sizeOf raw) raw ds dl doc le_rfl h

theorem isPreSectioned_of_shape {secs : List JValue} (h : ∀ sec ∈ secs, secShape sec) :
    isPreSectioned secs = true := by
  rw [isPreSectioned, List.all_eq_true]
  intro sec hsec
  obtain ⟨t, ss, rfl, _⟩ := h sec hsec
  rfl

theorem normPreSentence_fixed {s : JValue} (h : sentShape s) : normPreSentence s = .ok s := by
  obtain ⟨o, tv, b, rfl⟩ := h
  rfl

theorem normPreSentList_fixed {ss : List JValue} (h : ∀ x ∈ ss, sentShape x) :
    normPreSentList ss = .ok ss := by
  induction ss with
  | nil => rfl
  | cons s rest ih =>
      simp only [normPreSentList]
      rw [normPreSentence_fixed (h s (List.mem_cons_self _ _)),
        ih (fun x hx => h x (List.mem_cons_of_mem _ hx))]
      rfl

theorem normPreSection_fixed {ds : String} {sec : JValue} (h : secShape sec) :
    normPreSection ds sec = .ok sec := by
  obtain ⟨t, ss, rfl, hss⟩ := h
  show (normPreSentList ss >>= fun sents =>
      pure (JValue.obj [("sectionTitle", t), ("sentences", JValue.arr sents)])) = _
  rw [normPreSentList_fixed hss]
  rfl

theorem normPreSections_fixed {ds : String} {secs : List JValue}
    (h : ∀ sec ∈ secs, secShape sec) : normPreSections ds secs = .ok secs := by
  induction secs with
  | nil => rfl
  | cons sec rest ih =>
      simp only [normPreSections]
      rw [normPreSection_fixed (h sec (List.mem_cons_self _ _)),
        ih (fun x hx => h x (List.mem_cons_of_mem _ hx))]
      rfl

/-- Normalization is idempotent: one more pass leaves any output unchanged. -/
theorem normalize_data_idem {raw doc : JValue} {ds dl : String}
    (h : normalize_data raw ds dl = .ok doc) :
    normalize_data doc ds dl = .ok doc := by
  obtain ⟨secs, rfl, hsecs⟩ := normalize_data_shape h
  rw [normalize_data_arr, normList, if_pos (isPreSectioned_of_shape hsecs),
    normPreSections_fixed hsecs]
  rfl

theorem except_bind_err {α β : Type} (e : Except PyErr α) (f : α → Except PyErr β) (err : PyErr) :
    (e >>= f) = .error err ↔ e = .error err ∨ ∃ a, e = .ok a ∧ f a = .error err := by
  cases e <;> simp [Bind.bind, Except.bind]

theorem except_map_err {α β : Type} (e : Except PyErr α) (f : α → β) (err : PyErr) :
    Except.map f e = .error err ↔ e = .error err := by
  cases e <;> simp [Except.map]

theorem valueError_inventory {e : PyErr} (h : e.isValueError = true) : errInventory e := by
  cases e with
  | valueError m => trivial
  | typeError m => simp [PyErr.isValueError] at h
  | attrError m => simp [PyErr.isValueError] at h

theorem flatTranslations_err {dl : String} {i : Nat} {fs : List (String × JValue)} {e : PyErr}
    (h : flatTranslations dl i fs = .error e) : e.isValueError = true := by
  simp only [flatTranslations] at h
  cases h1 : lookupStr fs "translations" with
  | none =>
      rw [h1] at h
      cases h2 : lookupStr fs "translation" with
      | none => rw [h2] at h; cases h
      | some w => rw [h2] at h; cases w <;> cases h <;> rfl
  | some v =>
      rw [h1] at h
      cases v with
      | obj t =>
          cases h2 : lookupStr fs "translation" with
          | none => rw [h2] at h; cases h
          | some w => rw [h2] at h; cases w <;> cases h <;> rfl
      | null =>
          cases h2 : lookupStr fs "translation" with
          | none => rw [h2] at h; cases h
          | some w => rw [h2] at h; cases w <;> cases h <;> rfl
      | bool b => cases h; rfl
      | num n => cases h; rfl
      | str s => cases h; rfl
      | arr xs => cases h; rfl

theorem flatSentence_err {ds dl : String} {i : Nat} {item : JValue} {e : PyErr}
    (h : flatSentence ds dl i item = .error e) : e.isValueError = true := by
  cases item with
  | obj fs =>
      simp only [flatSentence] at h
      cases h1 : lookupStr fs "original" with
      | none => rw [h1] at h; cases h; rfl
      | some orig =>
          rw [h1] at h
          rw [except_map_err] at h
          exact flatTranslations_err h
  | null => cases h; rfl
  | bool b => cases h; rfl
  | num n => cases h; rfl
  | str s => cases h; rfl
  | arr xs => cases h; rfl

theorem pushSection_err {acc : List (JValue × List JValue)} {t s : JValue} {e : PyErr}
    (h : pushSection acc t s = .error e) : errInventory e := by
  cases t <;> simp only [pushSection] at h <;> cases h <;> simp [errInventory]

theorem normLoop_err {ds dl : String} {items : List JValue} {i : Nat}
    {acc : List (JValue × List JValue)} {e : PyErr}
    (h : normLoop ds dl items i acc = .error e) : errInventory e := by
  induction items generalizing i acc with
  | nil => cases h
  | cons item rest ih =>
      simp only [normLoop] at h
      rw [except_bind_err] at h
      rcases h with h | ⟨p, hp, h⟩
      · exact valueError_inventory (flatSentence_err h)
      · rw [except_bind_err] at h
        rcases h with h | ⟨acc', hacc, h⟩
        · exact pushSection_err h
        · exact ih h

theorem normalize_sentences_err {items : List JValue} {ds dl : String} {e : PyErr}
    (h : normalize_sentences items ds dl = .error e) : errInventory e := by
  simp only [normalize_sentences] at h
  rw [except_map_err] at h
  exact normLoop_err h

theorem pyIter_err {v : JValue} {e : PyErr} (h : pyIter v = .error e) : errInventory e := by
  cases v with
  | null => cases h; exact Or.inl rfl
  | bool b => cases h; exact Or.inr (Or.inl rfl)
  | num n => cases h; exact Or.inr (Or.inr (Or.inl rfl))
  | str s => cases h
  | arr xs => cases h
  | obj fs => cases h

theorem normPreSentence_err {s : JValue} {e : PyErr}
    (h : normPreSentence s = .error e) : e.isValueError = true := by
  cases s <;> simp only [normPreSentence] at h <;> cases h <;> rfl

theorem normPreSentList_err {ss : List JValue} {e : PyErr}
    (h : normPreSentList ss = .error e) : e.isValueError = true := by
  induction ss with
  | nil => cases h
  | cons s rest ih =>
      simp only [normPreSentList] at h
      rw [except_bind_err] at h
      rcases h with h | ⟨x, hx, h⟩
      · exact normPreSentence_err h
      · rw [except_bind_err] at h
        rcases h with h | ⟨xs, hxs, h⟩
        · exact ih h
        · cases h

theorem normPreSection_err {ds : String} {sec : JValue} {e : PyErr}
    (hobj : isObj sec = true) (h : normPreSection ds sec = .error e) : errInventory e := by
  cases sec with
  | obj fs =>
      simp only [normPreSection] at h
      rw [except_bind_err] at h
      rcases h with h | ⟨sl, hsl, h⟩
      · exact pyIter_err h
      · rw [except_bind_err] at h
        rcases h with h | ⟨sents, hsents, h⟩
        · exact valueError_inventory (normPreSentList_err h)
        · cases h
  | null => simp [isObj] at hobj
  | bool b => simp [isObj] at hobj
  | num n => simp [isObj] at hobj
  | str s => simp [isObj] at hobj
  | arr xs => simp [isObj] at hobj

theorem isPreSectioned_objs {xs : List JValue} (h : isPreSectioned xs = true) :
    ∀ x ∈ xs, isObj x = true := by
  intro x hx
  have hall := (List.all_eq_true.1 h) x hx
  cases x with
  | obj fs => rfl
  | null => simp at hall
  | bool b => simp at hall
  | num n => simp at hall
  | str s => simp at hall
  | arr ys => simp at hall

theorem normPreSections_err {ds : String} {secs : List JValue} {e : PyErr}
    (hobj : ∀ sec ∈ secs, isObj sec = true)
    (h : normPreSections ds secs = .error e) : errInventory e := by
  induction secs with
  | nil => cases h
  | cons sec rest ih =>
      simp only [normPreSections] at h
      rw [except_bind_err] at h
      rcases h with h | ⟨x, hx, h⟩
      · exact normPreSection_err (hobj sec (List.mem_cons_self _ _)) h
      · rw [except_bind_err] at h
        rcases h with h | ⟨xs, hxs, h⟩
        · exact ih (fun s hs => hobj s (List.mem_cons_of_mem _ hs)) h
        · cases h

theorem normList_err {xs : List JValue} {ds dl : String} {e : PyErr}
    (h : normList xs ds dl = .error e) : errInventory e := by
  simp only [normList] at h
  by_cases hps : isPreSectioned xs
  · rw [if_pos hps, except_map_err] at h
    exact normPreSections_err (isPreSectioned_objs hps) h
  · rw [if_neg hps] at h
    exact normalize_sentences_err h

theorem normalize_data_null (ds dl : String) :
    normalize_data JValue.null ds dl = .error (.valueError unsupportedShapeMsg) := by
  simp [normalize_data]

theorem normalize_data_bool (b : Bool) (ds dl : String) :
    normalize_data (JValue.bool b) ds dl = .error (.valueError unsupportedShapeMsg) := by
  simp [normalize_data]

theorem normalize_data_num (n : Int) (ds dl : String) :
    normalize_data (JValue.num n) ds dl = .error (.valueError unsupportedShapeMsg) := by
  simp [normalize_data]

theorem normalize_data_str (s : String) (ds dl : String) :
    normalize_data (JValue.str s) ds dl = .error (.valueError unsupportedShapeMsg) := by
  simp [normalize_data]

theorem normalize_data_err_aux : ∀ (n : Nat) (raw : JValue) (ds dl : String) (e : PyErr),
    sizeOf raw ≤ n → normalize_data raw ds dl = .error e → errInventory e := by
  intro n
  induction n with
  | zero =>
      intro raw ds dl e hle h
      cases raw <;> simp at hle
  | succ n ih =>
      intro raw ds dl e hle h
      cases raw with
      | arr xs =>
          rw [normalize_data_arr] at h
          exact normList_err h
      | obj fs =>
          cases hl : lookupStr fs "sections" with
          | some v =>
              rw [normalize_data_sections fs v ds dl hl] at h
              have hsz : sizeOf v < sizeOf (JValue.obj fs) := by
                have := lookupStr_sizeOf hl
                simp only [JValue.obj.sizeOf_spec]
                omega
              simp only [JValue.obj.sizeOf_spec] at hle hsz
              exact ih v ds dl e (by omega) h
          | none =>
              rw [normalize_data_no_sections fs ds dl hl] at h
              cases h
              trivial
      | null => rw [normalize_data_null] at h; cases h; trivial
      | bool b => rw [normalize_data_bool] at h; cases h; trivial
      | num m => rw [normalize_data_num] at h; cases h; trivial
      | str t => rw [normalize_data_str] at h; cases h; trivial

/-- Every failure of the normalizer is either an explicit `ValueError` or
one of the five interpreter `TypeError`s. -/
theorem normalize_data_err {raw : JValue} {ds dl : String} {e : PyErr}
    (h : normalize_data raw ds dl = .error e) : errInventory e :=
  normalize_data_err_aux (sizeOf raw) raw ds dl e le_rfl h

theorem lookupStr_dictUpdate_nil {e : List (String × JValue)} {key : String}
    (hnd : (e.map Prod.fst).Nodup) :
    lookupStr (dictUpdate [] e) key = lookupStr e key := by
  rw [lookupStr_dictUpdate [] e key hnd]
  cases h : lookupStr e key with
  | none => rfl
  | some v => rfl

theorem lookupStr_dictSetdefault (d : List (String × JValue)) (k : String) (v : JValue)
    (key : String) :
    lookupStr (dictSetdefault d k v) key =
      if (lookupStr d k).isSome then lookupStr d key
      else if key = k then some v else lookupStr d key := by
  unfold dictSetdefault
  by_cases hp : (lookupStr d k).isSome
  · rw [if_pos hp, if_pos hp]
  · rw [if_neg hp, if_neg hp]
    have hnone : lookupStr d k = none := by
      cases hl : lookupStr d k with
      | none => rfl
      | some w => rw [hl] at hp; simp at hp
    rw [lookupStr_append]
    by_cases hk : key = k
    · subst hk
      rw [hnone, if_pos rfl]
      simp [lookupStr]
    · rw [if_neg hk]
      cases hl : lookupStr d key with
      | none =>
          simp only [lookupStr]
          rw [if_neg (fun hc : k = key => hk hc.symm)]
      | some w => rfl

theorem flatTranslations_str_case {dl : String} {i : Nat} {fs T : List (String × JValue)}
    {s : String} (hT : lookupStr fs "translations" = some (JValue.obj T))
    (hs : lookupStr fs "translation" = some (JValue.str s)) :
    flatTranslations dl i fs = .ok (dictSetdefault (dictUpdate [] T) dl (JValue.str s)) := by
  simp only [flatTranslations]
  rw [hT, hs]
  rfl

theorem flatTranslations_obj_case {dl : String} {i : Nat} {fs T T2 : List (String × JValue)}
    (hT : lookupStr fs "translations" = some (JValue.obj T))
    (hs : lookupStr fs "translation" = some (JValue.obj T2)) :
    flatTranslations dl i fs = .ok (dictUpdate (dictUpdate [] T) T2) := by
  simp only [flatTranslations]
  rw [hT, hs]
  rfl

theorem flatSentence_not_obj_msg (ds dl : String) (i : Nat) {item : JValue}
    (h : isObj item = false) :
    flatSentence ds dl i item = .error (.valueError
      ("Entry " ++ toString i ++ " is not an object: " ++ pyRepr item)) := by
  cases item with
  | obj fs => simp [isObj] at h
  | null => rfl
  | bool b => rfl
  | num n => rfl
  | str s => rfl
  | arr xs => rfl

theorem flatSentence_missing_msg (ds dl : String) (i : Nat) {fs : List (String × JValue)}
    (h : lookupStr fs "original" = none) :
    flatSentence ds dl i (JValue.obj fs) = .error (.valueError
      ("Entry " ++ toString i ++ " is missing \x27original\x27: " ++ pyRepr (JValue.obj fs))) := by
  simp only [flatSentence]
  rw [h]

theorem flatTranslations_bad_translations_msg (dl : String) (i : Nat)
    {fs : List (String × JValue)} {v : JValue}
    (hv : lookupStr fs "translations" = some v) (hno : isObj v = false) (hnn : v ≠ JValue.null) :
    flatTranslations dl i fs = .error (.valueError
      ("\x27translations\x27 on entry " ++ toString i ++ " must be an object if provided.")) := by
  simp only [flatTranslations]
  rw [hv]
  cases v with
  | obj t => simp [isObj] at hno
  | null => exact absurd rfl hnn
  | bool b => rfl
  | num n => rfl
  | str s => rfl
  | arr xs => rfl

theorem flatTranslations_bad_translation_msg (dl : String) (i : Nat)
    {fs : List (String × JValue)} {v : JValue}
    (hT : lookupStr fs "translations" = none)
    (hv : lookupStr fs "translation" = some v) (hno : isObj v = false)
    (hns : ∀ s, v ≠ JValue.str s) (hnn : v ≠ JValue.null) :
    flatTranslations dl i fs = .error (.valueError
      ("\x27translation\x27 on entry " ++ toString i ++ " must be a string or object.")) := by
  simp only [flatTranslations]
  rw [hT, hv]
  cases v with
  | obj t => simp [isObj] at hno
  | null => exact absurd rfl hnn
  | str s => exact absurd rfl (hns s)
  | bool b => rfl
  | num n => rfl
  | arr xs => rfl

theorem normPreSentence_not_obj_msg {s : JValue} (h : isObj s = false) :
    normPreSentence s = .error (.valueError ("Sentence must be an object: " ++ pyRepr s)) := by
  cases s with
  | obj fs => simp [isObj] at h
  | null => rfl
  | bool b => rfl
  | num n => rfl
  | str t => rfl
  | arr xs => rfl

theorem normPreSection_title {ds : String} {fs : List (String × JValue)} {v out : JValue}
    (hv : lookupStr fs "sectionTitle" = some v)
    (h : normPreSection ds (JValue.obj fs) = .ok out) :
    ∃ ss, out = JValue.obj [("sectionTitle", v), ("sentences", JValue.arr ss)] := by
  simp only [normPreSection, except_bind_ok] at h
  obtain ⟨sl, hsl, h⟩ := h
  obtain ⟨sents, hsents, heq⟩ := h
  have heq2 : Except.ok (JValue.obj
      [("sectionTitle", (lookupStr fs "sectionTitle").getD (JValue.str ds)),
       ("sentences", JValue.arr sents)]) = Except.ok out := heq
  cases heq2
  rw [hv]
  exact ⟨sents, rfl⟩

theorem numSections_renderSections (secs : List (JValue × List JValue)) :
    numSections (renderSections secs) = secs.length := by
  simp [renderSections, numSections]

theorem forall₂_mem_right {α β : Type} {R : α → β → Prop} :
    ∀ {l1 : List α} {l2 : List β}, List.Forall₂ R l1 l2 →
      ∀ b ∈ l2, ∃ a, a ∈ l1 ∧ R a b := by
  intro l1 l2 h
  induction h with
  | nil =>
      intro b hb
      cases hb
  | cons hR hF ih =>
      intro b hb
      rcases List.mem_cons.1 hb with hb | hb
      · subst hb
        exact ⟨_, List.mem_cons_self _ _, hR⟩
      · obtain ⟨a, ha, haR⟩ := ih b hb
        exact ⟨a, List.mem_cons_of_mem _ ha, haR⟩

/-- When every entry carries a nonempty-string `section`, the resolved
titles of the pairs are exactly those strings. -/
theorem titles_map {ds : String} : ∀ (items : List JValue) (ps : List (JValue × JValue))
    (ts : List String),
    List.Forall₂ (fun item p => ∃ fs, item = JValue.obj fs ∧ p.1 = titleOf ds fs) items ps →
    List.Forall₂ (fun item s => sectionField item = some (JValue.str s) ∧ s ≠ "") items ts →
    ps.map Prod.fst = ts.map JValue.str := by
  intro items
  induction items with
  | nil =>
      intro ps ts h1 h2
      cases h1
      cases h2
      rfl
  | cons item rest ih =>
      intro ps ts h1 h2
      cases h1 with
      | cons hR1 hF1 =>
        cases h2 with
        | cons hR2 hF2 =>
          rename_i p ps' s ts'
          simp only [List.map_cons]
          obtain ⟨fs, hfs, hp1⟩ := hR1
          obtain ⟨hsec, hne⟩ := hR2
          rw [hfs] at hsec
          have hsec' : lookupStr fs "section" = some (JValue.str s) := hsec
          have htr : pyTruthy (JValue.str s) = true := by
            simp [pyTruthy]
            exact hne
          rw [ih _ _ hF1 hF2]
          congr 1
          rw [hp1]
          exact titleOf_of_truthy hsec' htr

theorem normPreSections_forall₂ {ds : String} : ∀ {secs outs : List JValue},
    normPreSections ds secs = .ok outs →
    List.Forall₂ (fun sec out => normPreSection ds sec = .ok out) secs outs := by
  intro secs
  induction secs with
  | nil =>
      intro outs h
      cases h
      exact List.Forall₂.nil
  | cons sec rest ih =>
      intro outs h
      simp only [normPreSections, except_bind_ok] at h
      obtain ⟨y, hy, h⟩ := h
      obtain ⟨ys, hys, heq⟩ := h
      have heq2 : Except.ok (y :: ys) = Except.ok outs := heq
      cases heq2
      exact List.Forall₂.cons hy (ih hys)

/-! ## Claims -/

/-- C1 (as stated, refuted): the claim says every accepted input yields
sentences whose `translations` is a mapping, never null.  In pre-sectioned
mode a sentence with `translations: null` passes the null through: the
`translations` field of the output sentence is null, not a mapping. -/
theorem C1_counterexample :
    normalize_data (JValue.arr [JValue.obj [("sectionTitle", JValue.str "t"),
        ("sentences", JValue.arr [JValue.obj [("original", JValue.str "a"),
          ("translations", JValue.null)]])]]) "Text" "en"
      = Except.ok (JValue.arr [JValue.obj [("sectionTitle", JValue.str "t"),
          ("sentences", JValue.arr [JValue.obj [("original", JValue.str "a"),
            ("translations", JValue.null), ("root", JValue.bool false)]])]])
    ∧ allSentTransObj (JValue.arr [JValue.obj [("sectionTitle", JValue.str "t"),
          ("sentences", JValue.arr [JValue.obj [("original", JValue.str "a"),
            ("translations", JValue.null), ("root", JValue.bool false)]])]]) = false := by
  constructor
  · rw [normalize_data_arr]
    rfl
  · rfl

/-- C1 (amended): in flat-list mode the `translations` of every output sentence
is a mapping (absent and null inputs both collapse to the empty mapping);
in pre-sectioned mode an absent `translations` collapses to the empty
mapping, but a present value — null included — passes through verbatim. -/
theorem C1_translations_mapping_amended :
    (∀ (items : List JValue) (ds dl : String) (doc : JValue),
      normalize_sentences items ds dl = .ok doc → allSentTransObj doc = true)
    ∧ (∀ fs : List (String × JValue), lookupStr fs "translations" = none →
        normPreSentence (JValue.obj fs) = .ok (JValue.obj
          [("original", (lookupStr fs "original").getD (JValue.str "")),
           ("translations", JValue.obj []),
           ("root", JValue.bool (pyTruthy ((lookupStr fs "root").getD (JValue.bool false))))])) := by
  constructor
  · intro items ds dl doc h
    exact normalize_sentences_transObj h
  · intro fs h
    simp only [normPreSentence]
    rw [h]
    rfl

/-- C1 amended, witnessed on a one-sentence flat list and on a
pre-sectioned sentence without `translations`. -/
theorem C1_witness :
    allSentTransObj (JValue.arr [JValue.obj [("sectionTitle", JValue.str "Text"),
      ("sentences", JValue.arr [JValue.obj [("original", JValue.str "a"),
        ("translations", JValue.obj []), ("root", JValue.bool false)]])]]) = true
    ∧ normPreSentence (JValue.obj [("original", JValue.str "a")]) = .ok (JValue.obj
        [("original", JValue.str "a"), ("translations", JValue.obj []),
         ("root", JValue.bool false)]) :=
  ⟨C1_translations_mapping_amended.1 [JValue.obj [("original", JValue.str "a")]]
      "Text" "en" _ rfl,
   C1_translations_mapping_amended.2 [("original", JValue.str "a")] rfl⟩

/-- C2 (confirmed): a string `translation` is inserted under the default
language code only when the `translations` mapping has not already set that
key; keys set by `translations` take precedence, no other key appears.  On
the example from the spec the merge yields exactly
`\x7b"fr": "bonjour", "en": "hi"\x7d`. -/
theorem C2_translation_string_set_if_absent :
    (∀ (dl : String) (i : Nat) (fs T : List (String × JValue)) (s : String),
      lookupStr fs "translations" = some (JValue.obj T) →
      lookupStr fs "translation" = some (JValue.str s) →
      (T.map Prod.fst).Nodup →
      ∃ m, flatTranslations dl i fs = .ok m
        ∧ (∀ k v, lookupStr T k = some v → lookupStr m k = some v)
        ∧ (lookupStr T dl = none → lookupStr m dl = some (JValue.str s))
        ∧ (∀ k, k ≠ dl → lookupStr T k = none → lookupStr m k = none))
    ∧ normalize_data (JValue.arr [JValue.obj [("original", JValue.str "x"),
          ("translations", JValue.obj [("fr", JValue.str "bonjour")]),
          ("translation", JValue.str "hi")]]) "Text" "en"
        = Except.ok (JValue.arr [JValue.obj [("sectionTitle", JValue.str "Text"),
            ("sentences", JValue.arr [JValue.obj [("original", JValue.str "x"),
              ("translations", JValue.obj [("fr", JValue.str "bonjour"), ("en", JValue.str "hi")]),
              ("root", JValue.bool false)]])]]) := by
  constructor
  · intro dl i fs T s hT hs hnd
    have hbase : ∀ k, lookupStr (dictUpdate [] T) k = lookupStr T k :=
      fun k => lookupStr_dictUpdate_nil hnd
    refine ⟨dictSetdefault (dictUpdate [] T) dl (JValue.str s),
      flatTranslations_str_case hT hs, ?_, ?_, ?_⟩
    · intro k v hv
      rw [lookupStr_dictSetdefault]
      by_cases hd : (lookupStr (dictUpdate [] T) dl).isSome
      · rw [if_pos hd, hbase k, hv]
      · rw [if_neg hd]
        by_cases hk : k = dl
        · subst hk
          have : (lookupStr (dictUpdate [] T) k).isSome = true := by
            rw [hbase k, hv]
            rfl
          exact absurd this hd
        · rw [if_neg hk, hbase k, hv]
    · intro hnone
      rw [lookupStr_dictSetdefault]
      have hd : (lookupStr (dictUpdate [] T) dl).isSome = false := by
        rw [hbase dl, hnone]
        rfl
      rw [if_neg (by simp [hd]), if_pos rfl]
    · intro k hk hnone
      rw [lookupStr_dictSetdefault]
      by_cases hd : (lookupStr (dictUpdate [] T) dl).isSome
      · rw [if_pos hd, hbase k, hnone]
      · rw [if_neg hd, if_neg hk, hbase k, hnone]
  · rw [normalize_data_arr]
    rfl

/-- C2, witnessed on the example entry from the spec. -/
theorem C2_witness :
    ∃ m, flatTranslations "en" 1 [("original", JValue.str "x"),
        ("translations", JValue.obj [("fr", JValue.str "bonjour")]),
        ("translation", JValue.str "hi")] = .ok m
      ∧ (∀ k v, lookupStr [("fr", JValue.str "bonjour")] k = some v → lookupStr m k = some v)
      ∧ (lookupStr [("fr", JValue.str "bonjour")] "en" = none →
          lookupStr m "en" = some (JValue.str "hi"))
      ∧ (∀ k, k ≠ "en" → lookupStr [("fr", JValue.str "bonjour")] k = none →
          lookupStr m k = none) :=
  C2_translation_string_set_if_absent.1 "en" 1 _ [("fr", JValue.str "bonjour")] "hi"
    rfl rfl (by decide)

/-- C3 (confirmed): a mapping-valued `translation` is merged with
`dict.update`, overwriting keys already set by `translations`; keys it does
not mention keep their `translations` value.  On the example from the spec the
merge yields exactly `\x7b"en": "new"\x7d`. -/
theorem C3_translation_mapping_overwrites :
    (∀ (dl : String) (i : Nat) (fs T T2 : List (String × JValue)),
      lookupStr fs "translations" = some (JValue.obj T) →
      lookupStr fs "translation" = some (JValue.obj T2) →
      (T.map Prod.fst).Nodup →
      (T2.map Prod.fst).Nodup →
      ∃ m, flatTranslations dl i fs = .ok m
        ∧ (∀ k v, lookupStr T2 k = some v → lookupStr m k = some v)
        ∧ (∀ k, lookupStr T2 k = none → lookupStr m k = lookupStr T k))
    ∧ normalize_data (JValue.arr [JValue.obj [("original", JValue.str "x"),
          ("translations", JValue.obj [("en", JValue.str "old")]),
          ("translation", JValue.obj [("en", JValue.str "new")])]]) "Text" "en"
        = Except.ok (JValue.arr [JValue.obj [("sectionTitle", JValue.str "Text"),
            ("sentences", JValue.arr [JValue.obj [("original", JValue.str "x"),
              ("translations", JValue.obj [("en", JValue.str "new")]),
              ("root", JValue.bool false)]])]]) := by
  constructor
  · intro dl i fs T T2 hT h2 hnd1 hnd2
    refine ⟨dictUpdate (dictUpdate [] T) T2, flatTranslations_obj_case hT h2, ?_, ?_⟩
    · intro k v hv
      rw [lookupStr_dictUpdate _ _ _ hnd2, hv]
    · intro k hnone
      rw [lookupStr_dictUpdate _ _ _ hnd2, hnone, lookupStr_dictUpdate_nil hnd1]
  · rw [normalize_data_arr]
    rfl

/-- C3, witnessed on the example entry from the spec. -/
theorem C3_witness :
    ∃ m, flatTranslations "en" 1 [("original", JValue.str "x"),
        ("translations", JValue.obj [("en", JValue.str "old")]),
        ("translation", JValue.obj [("en", JValue.str "new")])] = .ok m
      ∧ (∀ k v, lookupStr [("en", JValue.str "new")] k = some v → lookupStr m k = some v)
      ∧ (∀ k, lookupStr [("en", JValue.str "new")] k = none →
          lookupStr m k = lookupStr [("en", JValue.str "old")] k) :=
  C3_translation_mapping_overwrites.1 "en" 1 _ [("en", JValue.str "old")]
    [("en", JValue.str "new")] rfl rfl (by decide) (by decide)

/-- C4 (as stated, refuted): the claim says every entry-validation error —
the pre-sectioned non-mapping-sentence error included — carries the
1-based index of the offending entry.  The non-mapping sentence at index 1 of a
pre-sectioned section raises a message that contains no index at all (no
substring "1"). -/
theorem C4_counterexample :
    normalize_data (JValue.arr [JValue.obj [("sectionTitle", JValue.str "t"),
        ("sentences", JValue.arr [JValue.null])]]) "Text" "en"
      = Except.error (.valueError "Sentence must be an object: None")
    ∧ strHasSub "Sentence must be an object: None" "1" = false := by
  constructor
  · rw [normalize_data_arr]
    rfl
  · rfl

/-- C4 (amended): the flat-list errors for a non-mapping entry and a
missing `original` carry both the 1-based index and the `repr` of the
entry; the `translations`/`translation` type errors carry the index but
not the offending value; the pre-sectioned non-mapping-sentence error
carries the `repr` of the value but no index.  In particular entry 3 of a
flat list missing `original` raises a message containing "3". -/
theorem C4_messages_amended :
    (∀ (ds dl : String) (i : Nat) (item : JValue), isObj item = false →
      flatSentence ds dl i item = .error (.valueError
        ("Entry " ++ toString i ++ " is not an object: " ++ pyRepr item)))
    ∧ (∀ (ds dl : String) (i : Nat) (fs : List (String × JValue)),
        lookupStr fs "original" = none →
        flatSentence ds dl i (JValue.obj fs) = .error (.valueError
          ("Entry " ++ toString i ++ " is missing \x27original\x27: " ++ pyRepr (JValue.obj fs))))
    ∧ (∀ (dl : String) (i : Nat) (fs : List (String × JValue)) (v : JValue),
        lookupStr fs "translations" = some v → isObj v = false → v ≠ JValue.null →
        flatTranslations dl i fs = .error (.valueError
          ("\x27translations\x27 on entry " ++ toString i ++ " must be an object if provided.")))
    ∧ (∀ (dl : String) (i : Nat) (fs : List (String × JValue)) (v : JValue),
        lookupStr fs "translations" = none →
        lookupStr fs "translation" = some v → isObj v = false →
        (∀ s, v ≠ JValue.str s) → v ≠ JValue.null →
        flatTranslations dl i fs = .error (.valueError
          ("\x27translation\x27 on entry " ++ toString i ++ " must be a string or object.")))
    ∧ (∀ s : JValue, isObj s = false →
        normPreSentence s = .error (.valueError
          ("Sentence must be an object: " ++ pyRepr s)))
    ∧ (normalize_data (JValue.arr [JValue.obj [("original", JValue.str "a")],
          JValue.obj [("original", JValue.str "b")], JValue.obj [("x", JValue.str "c")]])
          "Text" "en"
        = Except.error (.valueError
            "Entry 3 is missing \x27original\x27: \x7b\x27x\x27: \x27c\x27\x7d")
        ∧ strHasSub "Entry 3 is missing \x27original\x27: \x7b\x27x\x27: \x27c\x27\x7d" "3" = true) := by
  refine ⟨?_, ?_, ?_, ?_, ?_, ?_, ?_⟩
  · intro ds dl i item h
    exact flatSentence_not_obj_msg ds dl i h
  · intro ds dl i fs h
    exact flatSentence_missing_msg ds dl i h
  · intro dl i fs v hv hno hnn
    exact flatTranslations_bad_translations_msg dl i hv hno hnn
  · intro dl i fs v hT hv hno hns hnn
    exact flatTranslations_bad_translation_msg dl i hT hv hno hns hnn
  · intro s h
    exact normPreSentence_not_obj_msg h
  · rw [normalize_data_arr]
    rfl
  · rfl

/-- C4 amended, witnessed: the missing-`original` message at index 3. -/
theorem C4_witness :
    flatSentence "Text" "en" 3 (JValue.obj [("x", JValue.str "c")])
      = Except.error (.valueError
          ("Entry " ++ toString 3 ++ " is missing \x27original\x27: "
            ++ pyRepr (JValue.obj [("x", JValue.str "c")]))) :=
  C4_messages_amended.2.1 "Text" "en" 3 [("x", JValue.str "c")] rfl

/-- C5 (as stated, refuted): the claim says a falsy `sectionTitle` (the
empty string, say) is replaced by `default_section_title`.  The code path
`section.get("sectionTitle", default_section)` only defaults when the key
is absent: the empty-string title is kept verbatim, not replaced by
"Text". -/
theorem C5_counterexample :
    normalize_data (JValue.arr [JValue.obj [("sectionTitle", JValue.str ""),
        ("sentences", JValue.arr [])]]) "Text" "en"
      = Except.ok (JValue.arr [JValue.obj [("sectionTitle", JValue.str ""),
          ("sentences", JValue.arr [])]])
    ∧ ¬ (JValue.str "" = JValue.str "Text") := by
  constructor
  · rw [normalize_data_arr]
    rfl
  · intro h
    injection h with h'
    exact absurd h' (by decide)

/-- C5 (amended): in pre-sectioned mode a present `sectionTitle` value is
passed through verbatim, truthy or not; the default applies only when the
key is absent, which the pre-sectioned dispatch predicate rules out. -/
theorem C5_title_verbatim_amended :
    ∀ (ds : String) (fs : List (String × JValue)) (v out : JValue),
      lookupStr fs "sectionTitle" = some v →
      normPreSection ds (JValue.obj fs) = .ok out →
      ∃ ss, out = JValue.obj [("sectionTitle", v), ("sentences", JValue.arr ss)] :=
  fun _ _ _ _ hv h => normPreSection_title hv h

/-- C5 amended, witnessed on the empty-string title. -/
theorem C5_witness :
    ∃ ss, JValue.obj [("sectionTitle", JValue.str ""), ("sentences", JValue.arr [])]
      = JValue.obj [("sectionTitle", JValue.str ""), ("sentences", JValue.arr ss)] :=
  C5_title_verbatim_amended "Text" [("sectionTitle", JValue.str ""), ("sentences", JValue.arr [])]
    (JValue.str "")
    (JValue.obj [("sectionTitle", JValue.str ""), ("sentences", JValue.arr [])]) rfl rfl

/-- C6 (as stated, refuted): two entries with the distinct `section` values
"" and "Text" (under default section title "Text") do not give two output
sections: the falsy "" resolves to the default, and both entries land in
one section. -/
theorem C6_counterexample :
    sectionField (JValue.obj [("original", JValue.str "a"), ("section", JValue.str "")])
        = some (JValue.str "")
    ∧ sectionField (JValue.obj [("original", JValue.str "b"), ("section", JValue.str "Text")])
        = some (JValue.str "Text")
    ∧ ("" : String) ≠ "Text"
    ∧ normalize_data (JValue.arr [
          JValue.obj [("original", JValue.str "a"), ("section", JValue.str "")],
          JValue.obj [("original", JValue.str "b"), ("section", JValue.str "Text")]]) "Text" "en"
        = Except.ok (JValue.arr [JValue.obj [("sectionTitle", JValue.str "Text"),
            ("sentences", JValue.arr [
              JValue.obj [("original", JValue.str "a"), ("translations", JValue.obj []),
                ("root", JValue.bool false)],
              JValue.obj [("original", JValue.str "b"), ("translations", JValue.obj []),
                ("root", JValue.bool false)]])]])
    ∧ numSections (JValue.arr [JValue.obj [("sectionTitle", JValue.str "Text"),
          ("sentences", JValue.arr [
            JValue.obj [("original", JValue.str "a"), ("translations", JValue.obj []),
              ("root", JValue.bool false)],
            JValue.obj [("original", JValue.str "b"), ("translations", JValue.obj []),
              ("root", JValue.bool false)]])]]) = 1 := by
  refine ⟨rfl, rfl, by decide, ?_, rfl⟩
  rw [normalize_data_arr]
  rfl

/-- C6 (amended): when the `section` of every entry is a truthy (nonempty)
string and these strings are pairwise distinct, the number of output
sections equals the number of entries (= the number of distinct values);
when `section` is absent from every entry of a nonempty flat list, the
output is exactly one section titled `default_section_title`. -/
theorem C6_section_count_amended :
    (∀ (ds dl : String) (items : List JValue) (ts : List String) (doc : JValue),
      normalize_sentences items ds dl = .ok doc →
      List.Forall₂ (fun item s => sectionField item = some (JValue.str s) ∧ s ≠ "") items ts →
      ts.Nodup →
      numSections doc = items.length)
    ∧ (∀ (ds dl : String) (items : List JValue) (doc : JValue),
      items ≠ [] →
      normalize_sentences items ds dl = .ok doc →
      (∀ item ∈ items, sectionField item = none) →
      ∃ ss, doc = JValue.arr [JValue.obj [("sectionTitle", JValue.str ds),
        ("sentences", JValue.arr ss)]]) := by
  constructor
  · intro ds dl items ts doc h hF hnd
    simp only [normalize_sentences] at h
    rw [except_map_ok] at h
    obtain ⟨final, hfinal, rfl⟩ := h
    rw [normLoop_ok_iff] at hfinal
    obtain ⟨ps, hps, hfold⟩ := hfinal
    have hrel := flatPairs_rel hps
    have hmap := titles_map items ps ts hrel hF
    have hpw : (ps.map Prod.fst).Pairwise (fun a b => pyKeyEq a b = false) := by
      rw [hmap, List.pairwise_map]
      refine List.Pairwise.imp ?_ hnd
      intro a b hab
      simp [pyKeyEq]
      exact hab
    have hlen := foldPush_len_distinct hfold
      (fun p hp g hg => absurd hg (List.not_mem_nil g)) hpw
    have hlen2 : ps.length = items.length := (List.Forall₂.length_eq hrel).symm
    rw [numSections_renderSections]
    simp only [List.length_nil] at hlen
    omega
  · intro ds dl items doc hne h habs
    simp only [normalize_sentences] at h
    rw [except_map_ok] at h
    obtain ⟨final, hfinal, rfl⟩ := h
    rw [normLoop_ok_iff] at hfinal
    obtain ⟨ps, hps, hfold⟩ := hfinal
    have hrel := flatPairs_rel hps
    have htitle : ∀ p ∈ ps, p.1 = JValue.str ds := by
      intro p hp
      obtain ⟨item, hitem, fs, hfs, hp1⟩ := forall₂_mem_right hrel p hp
      have hsec := habs item hitem
      rw [hfs] at hsec
      have hsec' : lookupStr fs "section" = none := hsec
      rw [hp1]
      exact titleOf_of_none hsec'
    cases hps' : ps with
    | nil =>
        rw [hps'] at hrel
        have hlen := List.Forall₂.length_eq hrel
        simp only [List.length_nil] at hlen
        exact absurd (List.length_eq_zero.1 hlen) hne
    | cons p rest =>
        rw [hps'] at hfold
        simp only [foldPush, except_bind_ok] at hfold
        obtain ⟨acc1, hacc1, hrest⟩ := hfold
        have hp1 : p.1 = JValue.str ds := htitle p (hps' ▸ List.mem_cons_self _ _)
        have hacc1' : acc1 = secAppend [] p.1 p.2 := pushSection_ok hacc1
        rw [hp1] at hacc1'
        have hacc1'' : acc1 = [(JValue.str ds, [p.2])] := hacc1'
        rw [hacc1''] at hrest
        obtain ⟨ss, hss⟩ := foldPush_const_title_aux hrest
          (fun q hq => htitle q (hps' ▸ List.mem_cons_of_mem _ hq))
        rw [hss]
        exact ⟨ss, rfl⟩

/-- C6 amended, witnessed on two entries with distinct truthy sections. -/
theorem C6_witness :
    numSections (JValue.arr [
      JValue.obj [("sectionTitle", JValue.str "A"),
        ("sentences", JValue.arr [JValue.obj [("original", JValue.str "a"),
          ("translations", JValue.obj []), ("root", JValue.bool false)]])],
      JValue.obj [("sectionTitle", JValue.str "B"),
        ("sentences", JValue.arr [JValue.obj [("original", JValue.str "b"),
          ("translations", JValue.obj []), ("root", JValue.bool false)]])]]) = 2 :=
  C6_section_count_amended.1 "Text" "en"
    [JValue.obj [("original", JValue.str "a"), ("section", JValue.str "A")],
     JValue.obj [("original", JValue.str "b"), ("section", JValue.str "B")]]
    ["A", "B"] _ rfl
    (List.Forall₂.cons ⟨rfl, by decide⟩
      (List.Forall₂.cons ⟨rfl, by decide⟩ List.Forall₂.nil))
    (by decide)

/-- C7 (as stated, refuted): the claim says flat-list sections are grouped
by exact string equality of the resolved title.  Python dict keys compare
`1 == True`, so the non-string titles `1` and `true` — which are not equal
strings, nor equal JSON values — land in one section. -/
theorem C7_counterexample :
    sectionField (JValue.obj [("original", JValue.str "a"), ("section", JValue.num 1)])
        = some (JValue.num 1)
    ∧ sectionField (JValue.obj [("original", JValue.str "b"), ("section", JValue.bool true)])
        = some (JValue.bool true)
    ∧ ¬ (JValue.num 1 = JValue.bool true)
    ∧ normalize_data (JValue.arr [
          JValue.obj [("original", JValue.str "a"), ("section", JValue.num 1)],
          JValue.obj [("original", JValue.str "b"), ("section", JValue.bool true)]]) "Text" "en"
        = Except.ok (JValue.arr [JValue.obj [("sectionTitle", JValue.num 1),
            ("sentences", JValue.arr [
              JValue.obj [("original", JValue.str "a"), ("translations", JValue.obj []),
                ("root", JValue.bool false)],
              JValue.obj [("original", JValue.str "b"), ("translations", JValue.obj []),
                ("root", JValue.bool false)]])]])
    ∧ numSections (JValue.arr [JValue.obj [("sectionTitle", JValue.num 1),
          ("sentences", JValue.arr [
            JValue.obj [("original", JValue.str "a"), ("translations", JValue.obj []),
              ("root", JValue.bool false)],
            JValue.obj [("original", JValue.str "b"), ("translations", JValue.obj []),
              ("root", JValue.bool false)]])]]) = 1 := by
  refine ⟨rfl, rfl, ?_, ?_, rfl⟩
  · intro h
    cases h
  · rw [normalize_data_arr]
    rfl

/-- C7 (amended): when every resolved section title is a string (always
the case when `section` fields are strings or absent, since the default is
a string), the output is exactly the grouping of the per-entry
(title, sentence) pairs by string equality of the title: one section per
distinct title in first-encounter order, each holding its sentences in
input encounter order. -/
theorem C7_grouping_amended :
    ∀ (ds dl : String) (items : List JValue) (ps : List (JValue × JValue))
      (sps : List (String × JValue)),
      flatPairs ds dl items 1 = .ok ps →
      stripTitles ps = some sps →
      normalize_sentences items ds dl = .ok (renderSections (specGroupStr sps)) := by
  intro ds dl items ps sps hps hstrip
  simp only [normalize_sentences]
  have hfold := foldPush_strings hstrip ([] : List (JValue × List JValue))
  rw [foldl_secAppend_spec] at hfold
  have hloop : normLoop ds dl items 1 [] = .ok (specGroupStr sps) :=
    (normLoop_ok_iff ds dl items 1 [] _).2 ⟨ps, hps, hfold⟩
  rw [hloop]
  rfl

/-- C7 amended, witnessed on titles A, B, A: two sections in
first-encounter order, the A-section holding both A-sentences in input
order. -/
theorem C7_witness :
    normalize_sentences [
        JValue.obj [("original", JValue.str "a"), ("section", JValue.str "A")],
        JValue.obj [("original", JValue.str "b"), ("section", JValue.str "B")],
        JValue.obj [("original", JValue.str "c"), ("section", JValue.str "A")]] "Text" "en"
      = .ok (renderSections (specGroupStr [
          ("A", JValue.obj [("original", JValue.str "a"), ("translations", JValue.obj []),
            ("root", JValue.bool false)]),
          ("B", JValue.obj [("original", JValue.str "b"), ("translations", JValue.obj []),
            ("root", JValue.bool false)]),
          ("A", JValue.obj [("original", JValue.str "c"), ("translations", JValue.obj []),
            ("root", JValue.bool false)])])) :=
  C7_grouping_amended "Text" "en" _ _ _ rfl rfl

/-- C8 (confirmed): a pre-sectioned input is rebuilt section by section;
each sentence keeps its `original` verbatim (the empty string only when the
key is absent), keeps a present `translations` and defaults an absent one
to the empty mapping, and coerces `root` by truthiness with default false.
Consequently normalization is idempotent on every output it produces. -/
theorem C8_roundtrip :
    (∀ (ds dl : String) (sects : List JValue) (doc : JValue),
      isPreSectioned sects = true →
      normalize_data (JValue.arr sects) ds dl = .ok doc →
      ∃ outs, doc = JValue.arr outs
        ∧ List.Forall₂ (fun sec out => normPreSection ds sec = .ok out) sects outs)
    ∧ (∀ fs : List (String × JValue),
        normPreSentence (JValue.obj fs) = .ok (JValue.obj
          [("original", (lookupStr fs "original").getD (JValue.str "")),
           ("translations", (lookupStr fs "translations").getD (JValue.obj [])),
           ("root", JValue.bool (pyTruthy ((lookupStr fs "root").getD (JValue.bool false))))]))
    ∧ (∀ (raw doc : JValue) (ds dl : String),
        normalize_data raw ds dl = .ok doc → normalize_data doc ds dl = .ok doc) := by
  refine ⟨?_, ?_, ?_⟩
  · intro ds dl sects doc hpre h
    rw [normalize_data_arr] at h
    simp only [normList] at h
    rw [if_pos hpre, except_map_ok] at h
    obtain ⟨outs, houts, rfl⟩ := h
    exact ⟨outs, rfl, normPreSections_forall₂ houts⟩
  · intro fs
    rfl
  · intro raw doc ds dl h
    exact normalize_data_idem h

/-- C8, witnessed: normalizing a one-sentence flat list and feeding the
output back in returns it unchanged. -/
theorem C8_witness :
    normalize_data (JValue.arr [JValue.obj [("sectionTitle", JValue.str "Text"),
        ("sentences", JValue.arr [JValue.obj [("original", JValue.str "a"),
          ("translations", JValue.obj []), ("root", JValue.bool false)]])]]) "Text" "en"
      = .ok (JValue.arr [JValue.obj [("sectionTitle", JValue.str "Text"),
          ("sentences", JValue.arr [JValue.obj [("original", JValue.str "a"),
            ("translations", JValue.obj []), ("root", JValue.bool false)]])]]) :=
  C8_roundtrip.2.2 (JValue.arr [JValue.obj [("original", JValue.str "a")]]) _ "Text" "en"
    (by rw [normalize_data_arr]; rfl)

/-- C9 (confirmed): the empty list is accepted as (vacuously)
pre-sectioned and normalizes to the empty document, for every choice of
defaults; it is not rejected as an unsupported shape. -/
theorem C9_empty_list :
    ∀ ds dl : String,
      normalize_data (JValue.arr []) ds dl = .ok (JValue.arr [])
      ∧ isPreSectioned [] = true := by
  intro ds dl
  constructor
  · rw [normalize_data_arr]
    rfl
  · rfl

/-- C10 (as stated, refuted): the claim says only `ValueError` escapes the
normalizer.  A pre-sectioned section whose `sentences` value is null makes
the `for sentence in ...` loop raise `TypeError`, not `ValueError`. -/
theorem C10_counterexample :
    normalize_data (JValue.arr [JValue.obj [("sectionTitle", JValue.str "t"),
        ("sentences", JValue.null)]]) "Text" "en"
      = Except.error (.typeError "\x27NoneType\x27 object is not iterable")
    ∧ PyErr.isValueError (.typeError "\x27NoneType\x27 object is not iterable") = false := by
  constructor
  · rw [normalize_data_arr]
    rfl
  · rfl

/-- C10 (amended): every failure of `normalize_data` is either a
`ValueError` or one of exactly five interpreter `TypeError`s: iterating a
null, boolean or number `sentences` value, or using a list or dict
`section` value as a dict key; no other exception kind escapes. -/
theorem C10_error_inventory_amended :
    ∀ (raw : JValue) (ds dl : String) (e : PyErr),
      normalize_data raw ds dl = .error e → errInventory e :=
  fun _ _ _ _ h => normalize_data_err h

/-- C10 amended, witnessed on the null-`sentences` input. -/
theorem C10_witness :
    errInventory (.typeError "\x27NoneType\x27 object is not iterable") :=
  C10_error_inventory_amended (JValue.arr [JValue.obj [("sectionTitle", JValue.str "t"),
      ("sentences", JValue.null)]]) "Text" "en" _
    (by rw [normalize_data_arr]; rfl)

end Partext
